import Mathlib

/-!
# Verification of the Postman collection converter (`folderstructureapp.py`)

A shallow embedding of the script-conversion pipeline of the repository
`Postman-Converter`.  The embedded program parts are:

* `detect_syntax_errors` / `is_script_complete` — the bracket-balance and
  completeness checker (lines 26–78 of `folderstructureapp.py`);
* the per-fragment conversion loop of `convert_scripts_in_collection`
  (lines 370–508), modelled by `runAttempts` / `fallbackFix` with the
  external generative service abstracted as an `Oracle` of fallible calls;
* the document tree walker `convert_scripts_in_collection` (lines 361–521),
  modelled by the mutual functions `walkV`/`walkF`/`walkArr`/`walkEvents`
  over a JSON value type `JVal`;
* `validate_as_v22_but_save_as_v21` (lines 19–24) and the module-level
  per-file and validation loops (lines 555–621), with the jsonschema
  validator and JSON parsing abstracted as oracles.

Python strings are modelled by `String`, with Python's `strip`, `lstrip`,
`split` and `splitlines` reimplemented character-exactly (`pyStrip`,
`pyLStripWS`, `pySplitNL`, `pySplitlines`).  Python exceptions raised by
the external service are modelled by `Except`; control flow that catches
them is translated into `match` on the `Except` value.
-/

/-! ## Python string primitives -/

/-- The character class stripped by Python's `str.strip()` with no
arguments: space, tab, newline, carriage return, vertical tab, form feed.
(This is also `re`'s `\s` class for ASCII input.) -/
def isPyWS (c : Char) : Bool :=
  c = ' ' || c = '\t' || c = '\n' || c = '\r' || c = '\x0b' || c = '\x0c'

/-- Python `s.lstrip()` (restricted to the whitespace class above). -/
def pyLStripWS (s : String) : String :=
  String.mk (s.data.dropWhile isPyWS)

/-- Python `s.strip()`. -/
def pyStrip (s : String) : String :=
  String.mk (((s.data.dropWhile isPyWS).reverse.dropWhile isPyWS).reverse)

/-- Python `s.lstrip(c)` for a single strip character `c`. -/
def pyLStripChar (c : Char) (s : String) : String :=
  String.mk (s.data.dropWhile (fun d => d = c))

/-- Lower-case an ASCII string, as Python's `str.lower()` does on the
ASCII prefixes ("javascript", "js") the program compares against. -/
def pyLower (s : String) : String :=
  String.mk (s.data.map Char.toLower)

/-- Python `s.split('\n')`: always at least one (possibly empty) part. -/
def pySplitNLAux : List Char → List Char → List String
  | [], acc => [String.mk acc.reverse]
  | c :: rest, acc =>
      if c = '\n' then String.mk acc.reverse :: pySplitNLAux rest []
      else pySplitNLAux rest (c :: acc)

def pySplitNL (s : String) : List String := pySplitNLAux s.data []

/-- The line-break characters recognised by Python `str.splitlines()`. -/
def isLineBreak (c : Char) : Bool :=
  c = '\n' || c = '\r' || c = '\x0b' || c = '\x0c' ||
  c = '\x1c' || c = '\x1d' || c = '\x1e' || c = '\x85' ||
  c = '\u2028' || c = '\u2029'

/-- Python `s.splitlines()`: `""` gives `[]`, a trailing break does not
produce a trailing empty line, and `"\r\n"` counts as one break. -/
def pySplitlinesAux : List Char → List Char → List String
  | [], acc => if acc.isEmpty then [] else [String.mk acc.reverse]
  | '\r' :: '\n' :: rest, acc => String.mk acc.reverse :: pySplitlinesAux rest []
  | c :: rest, acc =>
      if isLineBreak c then String.mk acc.reverse :: pySplitlinesAux rest []
      else pySplitlinesAux rest (c :: acc)

def pySplitlines (s : String) : List String := pySplitlinesAux s.data []

/-- Python `s.startswith(p)`. -/
def pyStartsWith (s p : String) : Bool := p.data.isPrefixOf s.data

/-- Python `s.endswith(p)`. -/
def pyEndsWith (s p : String) : Bool := p.data.reverse.isPrefixOf s.data.reverse

/-- Python `needle in hay` on strings (substring containment). -/
def listContainsSub (needle : List Char) : List Char → Bool
  | [] => needle.isEmpty
  | c :: rest => needle.isPrefixOf (c :: rest) || listContainsSub needle rest

def pyContainsSub (hay needle : String) : Bool :=
  listContainsSub needle.data hay.data

/-! ## The bracket-balance / completeness checker

Embeds `detect_syntax_errors` (lines 26–69) and `is_script_complete`
(lines 71–78).  The Python function produces formatted message strings;
the embedding produces structured `Defect` values carrying exactly the
data interpolated into each message. -/

inductive Defect where
  /-- `"Unmatched closing '<c>' at line <line>"` -/
  | unmatchedClosing (c : Char) (line : Nat)
  /-- `"Mismatched bracket: expected '<expected>' but found '<found>' at line <line>"` -/
  | mismatched (expected found : Char) (line : Nat)
  /-- `"Unclosed '<opening>' opened at line <line>, missing '<missing>'"` -/
  | unclosed (opening : Char) (line : Nat)
  /-- `"Possible missing semicolon at line <line>: '<content>'"` -/
  | missingSemicolon (line : Nat) (content : String)
  /-- `"Incomplete pm.test() or pm.expect() function call detected"` -/
  | incompleteCall
  /-- `"Incomplete JSON property access detected"` -/
  | incompleteJsonAccess
  deriving Repr, DecidableEq

/-- `pairs = {')': '(', '}': '{', ']': '['}` from line 31. -/
def bracketPair (c : Char) : Char :=
  if c = ')' then '(' else if c = '}' then '{' else '['

def isOpenBracket (c : Char) : Bool := c = '(' || c = '{' || c = '['
def isCloseBracket (c : Char) : Bool := c = ')' || c = '}' || c = ']'

/-- State of the character scan of lines 30–45: the stack of open
brackets with their line numbers (top of stack at the head, where Python
appends/pops at the end of its list), the current 1-based line number,
and the bracket errors emitted so far, in emission order. -/
structure ScanSt where
  stack : List (Char × Nat)
  line : Nat
  errs : List Defect
  deriving Repr, DecidableEq

def scanInit : ScanSt := ⟨[], 1, []⟩

/-- One step of the scan loop (lines 34–45) on a single character. -/
def scanStep (st : ScanSt) (c : Char) : ScanSt :=
  if c = '\n' then { st with line := st.line + 1 }
  else if isOpenBracket c then { st with stack := (c, st.line) :: st.stack }
  else if isCloseBracket c then
    match st.stack with
    | [] => { st with errs := st.errs ++ [.unmatchedClosing c st.line] }
    | (b, _) :: rest =>
        if b ≠ bracketPair c then
          { st with errs := st.errs ++ [.mismatched (bracketPair c) c st.line] }
        else { st with stack := rest }
  else st

def scanChars (cs : List Char) : ScanSt := cs.foldl scanStep scanInit

/-- The semicolon heuristic of lines 53–59, applied to one
(already stripped) line with its 1-based index. -/
def semicolonDefect (i : Nat) (line : String) : List Defect :=
  let l := pyStrip line
  if l ≠ "" &&
     !(pyEndsWith l ";" || pyEndsWith l "\x7b" || pyEndsWith l "\x7d" ||
       pyEndsWith l ")" || pyEndsWith l "]" || pyEndsWith l ",") then
    if (["pm.test", "pm.expect", "if", "for", "while", "let", "const", "var"].any
          fun kw => pyContainsSub l kw) then
      if !(pyEndsWith l ":") && !(pyStartsWith l "//") then
        [.missingSemicolon i l]
      else []
    else []
  else []

def semicolonScan (i : Nat) : List String → List Defect
  | [] => []
  | l :: rest => semicolonDefect i l ++ semicolonScan (i + 1) rest

/-- `re.search(r'pm\.(test|expect)\s*\(\s*$', s)` (line 62).  The pattern
is anchored at the end of the string (`$` may also sit before one final
newline, which the trailing `\s*` subsumes), so the search succeeds
exactly when, after discarding trailing `\s` characters, the text ends in
`pm.test(` or `pm.expect(` with optional `\s` before the `(`. -/
def trailingOpenCall (s : String) : Bool :=
  match s.data.reverse.dropWhile isPyWS with
  | '(' :: r2 =>
      let r3 := r2.dropWhile isPyWS
      ("pm.test".data.reverse).isPrefixOf r3 || ("pm.expect".data.reverse).isPrefixOf r3
  | _ => false

/-- `re.search(r'\.json\(\)\s*\.\s*$', s)` (line 66), by the same
end-of-string reading. -/
def trailingJsonDot (s : String) : Bool :=
  match s.data.reverse.dropWhile isPyWS with
  | '.' :: r2 =>
      let r3 := r2.dropWhile isPyWS
      (".json()".data.reverse).isPrefixOf r3
  | _ => false

/-- `detect_syntax_errors` (lines 26–69).  The unclosed-bracket report of
lines 48–50 iterates Python's stack oldest-first; since the model keeps
the top of the stack at the head, that is the reverse of `stack`. -/
def detect_syntax_errors (s : String) : List Defect :=
  let fin := scanChars s.data
  fin.errs
    ++ fin.stack.reverse.map (fun bl => .unclosed bl.1 bl.2)
    ++ semicolonScan 1 (pySplitNL s)
    ++ (if trailingOpenCall s then [.incompleteCall] else [])
    ++ (if trailingJsonDot s then [.incompleteJsonAccess] else [])

/-- `is_script_complete` (lines 71–78). -/
def is_script_complete (s : String) : Bool :=
  if pyStrip s = "" then true
  else (detect_syntax_errors s).isEmpty

/-! ## The generative conversion client, as an oracle

The external service calls (`generate_script_v22` /
`generate_script_v22_with_error_feedback`, lines 101–270;
`generate_script_v22_fix`, lines 318–359; `fix_syntax_v22`,
lines 294–316) are network requests: fallible, non-deterministic
black boxes.  Each is modelled as a function returning
`Except String String`, where `.error` stands for a raised exception
(transport failure, timeout, non-success status) and `.ok` for the
post-processed return value `response.text.strip().strip('`\n"\x27 ')`.

`gen` takes the original script text, the script type, and the 0-based
attempt index: the index determines the accumulated `error_context`
prompt and the grown chat history, so a response may depend on it. -/
structure Oracle where
  gen : String → String → Nat → Except String String
  genFix : String → String → String → Except String String
  fixSyn : String → String → Except String String

/-- The observable service interactions of one fragment conversion. -/
inductive CallEv where
  /-- a `generate_script_v22`/`..._with_error_feedback` call at the given
  0-based attempt index -/
  | gen (attempt : Nat)
  /-- a `generate_script_v22_fix` call (the continuation request) -/
  | genFix
  /-- a `fix_syntax_v22` call (the last-resort syntax fix) -/
  | fixSyn
  deriving Repr, DecidableEq

/-- Lines 394–399: `new_script.strip()` followed by the loop stripping a
leading `"javascript"` and then `"js"` language token, each followed by
`.lstrip(':').lstrip('\n').lstrip()`. -/
def stripLangTok (tok : String) (s : String) : String :=
  if pyStartsWith (pyLower s) tok then
    pyLStripWS (pyLStripChar '\n' (pyLStripChar ':' (String.mk (s.data.drop tok.length))))
  else s

def cleanOf (raw : String) : String :=
  stripLangTok "js" (stripLangTok "javascript" (pyStrip raw))

/-- The acceptance test of line 405:
`if not syntax_errors and is_complete and cleaned_script`. -/
def acceptScript (c : String) : Bool :=
  (detect_syntax_errors c).isEmpty && is_script_complete c && c ≠ ""

/-- Lines 467–471: the final `fix_syntax_v22` call of the fallback and
the acceptance of its result. -/
def fallbackSyn (o : Oracle) (stext c2 : String) : List String × List CallEv :=
  match o.fixSyn c2 stext with
  | .error _ => ([], [.fixSyn])
  | .ok ff =>
      let final := if ff ≠ "" && ff ≠ c2 then ff else c2
      ((if final ≠ "" then pySplitlines final else []), [.fixSyn])

/-- Lines 459–475: the post-cap fallback.  When the buffer is incomplete,
a continuation is requested by `generate_script_v22_fix` and its stripped
result is appended onto the buffer; then `fix_syntax_v22` runs on the
result.  An exception from either call degrades to an empty `exec`
(lines 473–475). -/
def fallbackFix (o : Oracle) (stext stype c : String) : List String × List CallEv :=
  if is_script_complete c then fallbackSyn o stext c
  else
    match o.genFix c stext stype with
    | .error _ => ([], [.genFix])
    | .ok f =>
        let c2 := c ++ pyStrip f
        ((fallbackSyn o stext c2).1, .genFix :: (fallbackSyn o stext c2).2)

/-- The `while attempt < max_attempts` loop of lines 381–508, written by
recursion on the remaining budget `fuel` (the loop is run with
`attempt = 0`, `fuel = max_attempts = 8`, and every failing round
increments `attempt` / decrements `fuel`; `fuel = 0` is never reached).
Returns the final value written to `value["exec"]` and the service calls
made. -/
def runAttempts (o : Oracle) (stext stype : String) : Nat → Nat → List String × List CallEv
  | _, 0 => ([], [])
  | attempt, fuel + 1 =>
    match o.gen stext stype attempt with
    | .error _ =>
        -- lines 478–508: the round raised; one attempt is consumed and,
        -- at the cap, `value["exec"] = []` with no fallback call.
        if fuel = 0 then ([], [.gen attempt])
        else
          ((runAttempts o stext stype (attempt + 1) fuel).1,
           .gen attempt :: (runAttempts o stext stype (attempt + 1) fuel).2)
    | .ok raw =>
        let c := cleanOf raw
        if acceptScript c then (pySplitlines c, [.gen attempt])            -- lines 405–409
        else if c = "" then ([], [.gen attempt])                           -- lines 410–413
        else if fuel = 0 then
          ((fallbackFix o stext stype c).1,                                -- lines 457–476
           .gen attempt :: (fallbackFix o stext stype c).2)
        else
          ((runAttempts o stext stype (attempt + 1) fuel).1,               -- lines 414–455
           .gen attempt :: (runAttempts o stext stype (attempt + 1) fuel).2)

/-- `max_attempts = 8` (line 382). -/
def max_attempts : Nat := 8

/-- The whole conversion of one non-blank fragment text (lines 380–508). -/
def convertText (o : Oracle) (stext stype : String) : List String × List CallEv :=
  runAttempts o stext stype 0 max_attempts

def isGenEv : CallEv → Bool
  | .gen _ => true
  | _ => false

/-- Number of `gen` calls (conversion attempts) in a trace. -/
def genCount (evs : List CallEv) : Nat := evs.countP (isGenEv ·)

/-- A trace consisting only of conversion attempts (no fallback calls). -/
def genOnly (evs : List CallEv) : Bool := evs.all (isGenEv ·)

/-- Round `i` of the conversion loop fails and continues: the service
call raises, or the cleaned response is defective but non-empty (an
empty cleaned response instead breaks the loop with an empty `exec`,
lines 410–413). -/
def failsAt (o : Oracle) (stext stype : String) (i : Nat) : Bool :=
  match o.gen stext stype i with
  | .error _ => true
  | .ok raw => !(acceptScript (cleanOf raw)) && !(cleanOf raw = "")

/-! ## The document tree

JSON documents (`json.loads` output) are modelled by the mutual inductive
`JVal`/`JArr`/`JObj`.  Objects are association lists in insertion order,
matching Python dict iteration order; `wfV` below requires the keys of
every object to be distinct, which `json.loads` guarantees. -/

mutual
inductive JVal where
  | null
  | bool (b : Bool)
  | num (n : Int)
  | str (s : String)
  | arr (xs : JArr)
  | obj (fs : JObj)
  deriving Repr, DecidableEq
inductive JArr where
  | nil
  | cons (hd : JVal) (tl : JArr)
  deriving Repr, DecidableEq
inductive JObj where
  | nil
  | cons (k : String) (v : JVal) (tl : JObj)
  deriving Repr, DecidableEq
end

/-- Python `d[k]` / `d.get(k)`: the value at the first (unique) matching
key. -/
def lookupJ : JObj → String → Option JVal
  | .nil, _ => none
  | .cons k v tl, q => if k = q then some v else lookupJ tl q

/-- Python `k in d`. -/
def hasKeyJ (fs : JObj) (q : String) : Bool := (lookupJ fs q).isSome

/-- Python `d[k] = v` on a dict: replaces in place if the key exists,
appends otherwise. -/
def setKeyJ : JObj → String → JVal → JObj
  | .nil, q, v => .cons q v .nil
  | .cons k v0 tl, q, v => if k = q then .cons k v tl else .cons k v0 (setKeyJ tl q v)

def getArr : JArr → Nat → Option JVal
  | .nil, _ => none
  | .cons v _, 0 => some v
  | .cons _ tl, n + 1 => getArr tl n

def lenArr : JArr → Nat
  | .nil => 0
  | .cons _ tl => lenArr tl + 1

/-- `event.get("listen", None)` (line 366), on a `JVal` that may not be
an object. -/
def listenOf : JVal → Option JVal
  | .obj fs => lookupJ fs "listen"
  | _ => none

/-- Line 378: `script_type = parent_listen if parent_listen in
("prerequest", "test") else "test"`.  The inherited `parent_listen` is an
arbitrary JSON value (or absent); only the exact strings `"prerequest"`
and `"test"` survive, and both collapse to themselves, so the result is
`"prerequest"` exactly when the parent listen tag is that string. -/
def scriptTypeOf : Option JVal → String
  | some (.str "prerequest") => "prerequest"
  | _ => "test"

/-- `line.strip() == ""` for each entry of an `exec` list (line 374).
Non-string entries make Python raise `AttributeError`; they are excluded
by `wfV` and treated as non-blank here. -/
def execAllBlank : JArr → Bool
  | .nil => true
  | .cons (.str s) tl => pyStrip s = "" && execAllBlank tl
  | .cons _ _ => false

/-- `"\n".join(old_exec)` (line 377).  Non-string entries would raise in
Python and are excluded by `wfV`; they are joined as `""` here. -/
def joinExec (xs : JArr) : String :=
  String.intercalate "\n" (execLines xs)
where
  execLines : JArr → List String
    | .nil => []
    | .cons (.str s) tl => s :: execLines tl
    | .cons _ tl => "" :: execLines tl

def mkStrArr : List String → JArr
  | [] => .nil
  | s :: rest => .cons (.str s) (mkStrArr rest)

/-- The per-script block of lines 370–508, for the `exec` value of one
script object: either the blank-list short-circuit of lines 374–375
(no service call) or the conversion loop on the joined text.  The Python
`str(old_exec)` branch for non-list `exec` is modelled for string `exec`
(where `str` is the identity); other scalar `exec` values are excluded by
`wfV` and left unchanged here. -/
def processExec (o : Oracle) (ex : JVal) (pl : Option JVal) : JVal × List CallEv :=
  match ex with
  | .arr es =>
      if execAllBlank es then (.arr .nil, [])
      else
        (.arr (mkStrArr (convertText o (joinExec es) (scriptTypeOf pl)).1),
         (convertText o (joinExec es) (scriptTypeOf pl)).2)
  | .str s =>
      (.arr (mkStrArr (convertText o s (scriptTypeOf pl)).1),
       (convertText o s (scriptTypeOf pl)).2)
  | other => (other, [])

/-! ## The tree walker

`convert_scripts_in_collection` (lines 361–521) mutates the tree in
place; the model rebuilds it.  Each conversion of a script is recorded as
a `Visit` holding the path (relative to the walked root) of the
script-holding container and the script type passed to the service.

The Python function processes, for a dict: first the elements of a list
under `"event"` that have a `"script"` key (recursing with that event's
listen tag), then its own `"script"`/`"exec"`, then the elements of a
list under `"item"` (recursing with no inherited listen), then every
value under a key other than `"event"`/`"script"`/`"item"` (keeping the
inherited listen).  These four groups touch disjoint keys of the dict,
so the model processes the fields in dict (insertion) order with the
per-key dispatch; the rebuilt tree is identical and only the order in
which visits are recorded differs from Python's grouped order. -/

inductive Step where
  | key (k : String)
  | idx (i : Nat)
  deriving Repr, DecidableEq

structure Visit where
  path : List Step
  stype : String
  deriving Repr, DecidableEq

def consStep (s : Step) (vs : List Visit) : List Visit :=
  vs.map fun v => ⟨s :: v.path, v.stype⟩

mutual
/-- `convert_scripts_in_collection(obj, parent_listen)`. -/
def walkV (o : Oracle) : JVal → Option JVal → JVal × List Visit
  | .obj fs, pl =>
      (.obj (walkF o fs pl).1, (walkF o fs pl).2)
  | .arr xs, pl =>
      -- lines 519–521: a list propagates the inherited listen
      (.arr (walkArr o xs pl 0).1, (walkArr o xs pl 0).2)
  | v, _ => (v, [])

/-- Field-by-field processing of a dict (see the dispatch note above). -/
def walkF (o : Oracle) : JObj → Option JVal → JObj × List Visit
  | .nil, _ => (.nil, [])
  | .cons k v tl, pl =>
      let hd : JVal × List Visit :=
        if k = "event" then
          -- lines 364–368: only a list value, and only elements with a
          -- "script" key, with that event's own listen tag
          match v with
          | .arr es =>
              (.arr (walkEvents o es 0).1, consStep (.key "event") (walkEvents o es 0).2)
          | _ => (v, [])
        else if k = "script" then
          -- lines 370–508: a dict value with an "exec" key is converted
          -- in place; nothing below "script" is ever recursed into
          match v with
          | .obj sfs =>
              match lookupJ sfs "exec" with
              | some ex =>
                  (.obj (setKeyJ sfs "exec" (processExec o ex pl).1), [⟨[], scriptTypeOf pl⟩])
              | none => (v, [])
          | _ => (v, [])
        else if k = "item" then
          -- lines 511–513: only a list value, each element with
          -- parent_listen reset to None
          match v with
          | .arr es =>
              (.arr (walkItems o es 0).1, consStep (.key "item") (walkItems o es 0).2)
          | _ => (v, [])
        else
          -- lines 515–517: any other key, inherited listen preserved
          ((walkV o v pl).1, consStep (.key k) (walkV o v pl).2)
      (.cons k hd.1 (walkF o tl pl).1, hd.2 ++ (walkF o tl pl).2)

/-- The loop over `obj["event"]` (lines 365–368). -/
def walkEvents (o : Oracle) : JArr → Nat → JArr × List Visit
  | .nil, _ => (.nil, [])
  | .cons e tl, i =>
      let hd : JVal × List Visit :=
        match e with
        | .obj efs =>
            if hasKeyJ efs "script" then
              ((walkV o e (lookupJ efs "listen")).1,
               consStep (.idx i) (walkV o e (lookupJ efs "listen")).2)
            else (e, [])
        | _ => (e, [])
      (.cons hd.1 (walkEvents o tl (i + 1)).1, hd.2 ++ (walkEvents o tl (i + 1)).2)

/-- The loop over `obj["item"]` (lines 512–513): `parent_listen` is not
passed, so it resets to `None`. -/
def walkItems (o : Oracle) : JArr → Nat → JArr × List Visit
  | .nil, _ => (.nil, [])
  | .cons e tl, i =>
      (.cons (walkV o e none).1 (walkItems o tl (i + 1)).1,
       consStep (.idx i) (walkV o e none).2 ++ (walkItems o tl (i + 1)).2)

/-- The loop over a plain list (lines 519–521). -/
def walkArr (o : Oracle) : JArr → Option JVal → Nat → JArr × List Visit
  | .nil, _, _ => (.nil, [])
  | .cons e tl, pl, i =>
      (.cons (walkV o e pl).1 (walkArr o tl pl (i + 1)).1,
       consStep (.idx i) (walkV o e pl).2 ++ (walkArr o tl pl (i + 1)).2)
end

/-! ## Well-formed documents

`wfV` captures the shapes on which the Python walker is defined (does not
raise) and on which Python dict semantics and the association-list model
agree: every object has distinct keys, every element of an `event` list
is an object (Python calls `.get` on it), and a `script` object's `exec`
value, when present, is a string or a list of strings (Python calls
`.strip()` on its entries and joins them). -/

/-- Distinct keys, as guaranteed by `json.loads`. -/
def nodupKeysJ : JObj → Bool
  | .nil => true
  | .cons k _ tl => !(hasKeyJ tl k) && nodupKeysJ tl

def allObjArr : JArr → Bool
  | .nil => true
  | .cons (.obj _) tl => allObjArr tl
  | .cons _ _ => false

def allStrArr : JArr → Bool
  | .nil => true
  | .cons (.str _) tl => allStrArr tl
  | .cons _ _ => false

def execShapeOK : JVal → Bool
  | .str _ => true
  | .arr xs => allStrArr xs
  | _ => false

/-- Per-field shape constraints (see `wfV`). -/
def fieldOK (k : String) (v : JVal) : Bool :=
  if k = "event" then
    match v with
    | .arr es => allObjArr es
    | _ => true
  else if k = "script" then
    match v with
    | .obj sfs =>
        match lookupJ sfs "exec" with
        | some ex => execShapeOK ex
        | none => true
    | _ => true
  else true

mutual
def wfV : JVal → Bool
  | .obj fs => nodupKeysJ fs && wfF fs
  | .arr xs => wfA xs
  | _ => true
def wfF : JObj → Bool
  | .nil => true
  | .cons k v tl => fieldOK k v && wfV v && wfF tl
def wfA : JArr → Bool
  | .nil => true
  | .cons v tl => wfV v && wfA tl
end

/-! ## The specified phase-resolution rule

`specPhaseListen` renders the specification's phase rule (spec §4.4):
walking down a recorded visit path, the inherited listen tag is replaced
by an event's own `listen` value on entering an element of an `event`
list, reset to none on entering an `item` list, and preserved through
every other container step.  This is the spec-side definition against
which the walker's recorded script types are compared; it is written from
the specification's words, not from the code. -/
def specPhaseListen : JVal → List Step → Option JVal → Bool → Option JVal
  | _, [], cur, _ => cur
  | .obj fs, .key k :: rest, cur, _ =>
      (match lookupJ fs k with
        | some v => specPhaseListen v rest (if k = "item" then none else cur) (k = "event")
        | none => cur)
  | .arr xs, .idx i :: rest, cur, ev =>
      (match getArr xs i with
        | some v => specPhaseListen v rest (if ev then listenOf v else cur) false
        | none => cur)
  | _, _ :: _, cur, _ => cur

/-- The value at a path in a document (used to state that a recorded
visit path denotes a real node). -/
def atPath : JVal → List Step → Option JVal
  | v, [] => some v
  | .obj fs, .key k :: rest =>
      (match lookupJ fs k with
        | some v => atPath v rest
        | none => none)
  | .arr xs, .idx i :: rest =>
      (match getArr xs i with
        | some v => atPath v rest
        | none => none)
  | _, _ :: _ => none

/-! ## Schema relabeling and the validation loop

`validate(instance, schema)` (jsonschema) is an external black box,
modelled as `val : JVal → Except String Unit` where `.error` is a raised
`ValidationError` carrying its message.  `json.loads` on service output
is likewise a black box `parse`. -/

def schemaV22 : String := "https://schema.getpostman.com/json/collection/v2.2.0/collection.json"
def schemaV21 : String := "https://schema.getpostman.com/json/collection/v2.1.0/collection.json"

/-- Lines 20–21: `if "info" not in obj: obj["info"] = {}`. -/
def injectInfo (fs : JObj) : JObj :=
  if hasKeyJ fs "info" then fs else setKeyJ fs "info" (.obj .nil)

/-- `validate_as_v22_but_save_as_v21` (lines 19–24).  The Python function
mutates `obj` in place and raises on validation failure; the model
returns `.ok` with the final (v2.1.0-labelled) document, or `.error`
with the raised message *and the document in its mutated state* at the
point of the raise.  The second component records whether `validate` was
invoked.  A non-object document, or an `"info"` value that is not an
object, makes the Python assignment raise `TypeError` before any
validation. -/
def validate_as_v22_but_save_as_v21 (val : JVal → Except String Unit) :
    JVal → (Except (String × JVal) JVal) × Bool
  | .obj fs =>
      let fs1 := injectInfo fs
      match lookupJ fs1 "info" with
      | some (.obj ifs) =>
          let ifs2 := setKeyJ ifs "schema" (.str schemaV22)
          let fs2 := setKeyJ fs1 "info" (.obj ifs2)
          (match val (.obj fs2) with
            | .ok _ =>
                (.ok (.obj (setKeyJ fs1 "info" (.obj (setKeyJ ifs2 "schema" (.str schemaV21))))), true)
            | .error e => (.error (e, .obj fs2), true))
      | _ => (.error ("TypeError", .obj fs1), false)
  | v => (.error ("TypeError", v), false)

/-- The JSON parser and the whole-document repair call
(`generate_postman_v22_again`, lines 272–292) of the validation loop,
both external and fallible. -/
structure RepairOracle where
  parse : String → Except String JVal
  repair : String → Except String String

inductive FinalizeResult where
  /-- the file is appended to `valid_files`; `repaired` tells whether it
  got there via the `generate_postman_v22_again` retry (lines 610–619) -/
  | valid (doc : JVal) (repaired : Bool)
  /-- lines 620–621: appended to `invalid_files` with
  `f"Initial error: {e}; Retry error: {e2}"` -/
  | invalid (initialErr retryErr : String)
  deriving Repr, DecidableEq

/-- Observable external calls of one iteration of the validation loop. -/
structure FinalizeTrace where
  repairCalls : Nat
  validateCalls : Nat
  deriving Repr, DecidableEq

/-- One iteration of the validation loop (lines 602–621) on the raw text
of one converted file: parse and validate; on any exception, read the
raw text again, call `generate_postman_v22_again` exactly once, reparse,
revalidate, and on a second exception record both messages. -/
def finalizeDoc (ro : RepairOracle) (val : JVal → Except String Unit) (raw : String) :
    FinalizeResult × FinalizeTrace :=
  let first : Except String JVal × Nat :=
    match ro.parse raw with
    | .error e => (.error e, 0)
    | .ok data =>
        match validate_as_v22_but_save_as_v21 val data with
        | (.ok d, _) => (.ok d, 1)
        | (.error (e, _), b) => (.error e, if b then 1 else 0)
  match first with
  | (.ok d, n) => (.valid d false, ⟨0, n⟩)
  | (.error e, n) =>
      match ro.repair raw with
      | .error e2 => (.invalid e e2, ⟨1, n⟩)
      | .ok fixed =>
          match ro.parse fixed with
          | .error e2 => (.invalid e e2, ⟨1, n⟩)
          | .ok parsed =>
              match validate_as_v22_but_save_as_v21 val parsed with
              | (.ok d, _) => (.valid d true, ⟨1, n + 1⟩)
              | (.error (e2, _), b) => (.invalid e e2, ⟨1, n + (if b then 1 else 0)⟩)

/-! ## Helpers for the statements of the claims -/

/-- The paths of a visit list. -/
def pathsOf (vs : List Visit) : List (List Step) := vs.map Visit.path

/-- The `schema` field of a document's `info` object, if any. -/
def infoSchemaOf : JVal → Option JVal
  | .obj fs =>
      (match lookupJ fs "info" with
        | some (.obj ifs) => lookupJ ifs "schema"
        | _ => none)
  | _ => none

/-- The document as mutated by the first half of
`validate_as_v22_but_save_as_v21` (lines 20–22): `info` injected if
missing and `info.schema` overwritten with the v2.2.0 identifier.
`none` when the `info` value is not an object (Python raises before the
mutation). -/
def relabelV22 (fs : JObj) : Option JVal :=
  match lookupJ (injectInfo fs) "info" with
  | some (.obj ifs) =>
      some (.obj (setKeyJ (injectInfo fs) "info"
        (.obj (setKeyJ ifs "schema" (.str schemaV22)))))
  | _ => none

/-- Every generation call raises. -/
def oracleAllError : Oracle :=
  ⟨fun _ _ _ => .error "boom", fun _ _ _ => .error "boom", fun _ _ => .error "boom"⟩

/-- Every generation call returns the defective script `"foo("`; the
continuation call returns `");"`; the final syntax fix returns `""`
(so the loop keeps the continued buffer). -/
def oracleAllDefect : Oracle :=
  ⟨fun _ _ _ => .ok "foo(", fun _ _ _ => .ok ");", fun _ _ => .ok ""⟩

/-- First round defective (`"foo("`), second round clean (`"bar();"`);
the fallback operations would raise if reached. -/
def oracleTwoRounds : Oracle :=
  ⟨fun _ _ n => if n = 0 then .ok "foo(" else .ok "bar();",
   fun _ _ _ => .error "e", fun _ _ => .error "e"⟩

/-- Every generation call returns the defective script `"foo("` and
both fallback operations raise. -/
def oracleDefectFixFail : Oracle :=
  ⟨fun _ _ _ => .ok "foo(", fun _ _ _ => .error "fe", fun _ _ => .error "fe"⟩

/-- A mixed run: rounds 0–6 return the defective script `"foo("`, and the
capping round 7 raises.  The fallback operations would succeed if they
were reached. -/
def oracleMixedCap : Oracle :=
  ⟨fun _ _ n => if n < 7 then .ok "foo(" else .error "boom",
   fun _ _ _ => .ok ");", fun _ _ => .ok ""⟩

/-- Every generation call returns the clean script `"bar();"`. -/
def oracleClean : Oracle :=
  ⟨fun _ _ _ => .ok "bar();", fun _ _ _ => .error "e", fun _ _ => .error "e"⟩

/-- A document whose only script object lies beneath a `"script"` key
without an `"exec"` field: the fragment `tests["a"] = 1;` inside it is
reachable in the tree but the walker neither visits nor converts it. -/
def docMissedScript : JVal :=
  .obj (.cons "script"
    (.obj (.cons "inner"
      (.obj (.cons "script"
        (.obj (.cons "exec" (.arr (.cons (.str "tests[\"a\"] = 1;") .nil)) .nil))
        .nil))
      .nil))
    .nil)

/-- A well-formed document with one prerequest script inside an event of
an item. -/
def docOneScript : JVal :=
  .obj (.cons "item" (.arr (.cons
    (.obj (.cons "event" (.arr (.cons
      (.obj (.cons "listen" (.str "prerequest")
        (.cons "script" (.obj (.cons "exec" (.arr (.cons (.str "x()") .nil)) .nil))
          .nil)))
      .nil))
      .nil))
    .nil))
    .nil)

/-- A validator that rejects every document with message `"E"`. -/
def valReject : JVal → Except String Unit := fun _ => .error "E"

/-- Parsing always yields `{}`; the repair call returns `"fixed"`. -/
def repairOracle0 : RepairOracle :=
  ⟨fun _ => .ok (.obj .nil), fun _ => .ok "fixed"⟩

/-! ## General lemmas -/

theorem lookupJ_setKeyJ_self : ∀ (fs : JObj) (k : String) (v : JVal),
    lookupJ (setKeyJ fs k v) k = some v
  | .nil, k, v => by simp [setKeyJ, lookupJ]
  | .cons k0 v0 tl, k, v => by
      by_cases h : k0 = k
      · simp [setKeyJ, h, lookupJ]
      · simp [setKeyJ, h, lookupJ, lookupJ_setKeyJ_self tl k v]

theorem scanStep_errs_mono (st : ScanSt) (c : Char) :
    ∃ extra, (scanStep st c).errs = st.errs ++ extra := by
  unfold scanStep
  split
  · exact ⟨[], by simp⟩
  split
  · exact ⟨[], by simp⟩
  split
  · split
    · exact ⟨_, rfl⟩
    · split
      · exact ⟨_, rfl⟩
      · exact ⟨[], by simp⟩
  · exact ⟨[], by simp⟩

theorem foldl_scanStep_errs_mono (cs : List Char) (st : ScanSt) :
    ∃ extra, (cs.foldl scanStep st).errs = st.errs ++ extra := by
  induction cs generalizing st with
  | nil => exact ⟨[], by simp⟩
  | cons c cs ih =>
      obtain ⟨e1, h1⟩ := scanStep_errs_mono st c
      obtain ⟨e2, h2⟩ := ih (scanStep st c)
      exact ⟨e1 ++ e2, by simp [h2, h1]⟩

/-- C9 (part): helper giving membership of an error in the final errs. -/
theorem mem_errs_of_mem_foldl (cs : List Char) (st : ScanSt) (d : Defect)
    (h : d ∈ st.errs) : d ∈ (cs.foldl scanStep st).errs := by
  obtain ⟨extra, he⟩ := foldl_scanStep_errs_mono cs st
  rw [he]; exact List.mem_append_left _ h

/-- C8: a script whose original `exec` is a list consisting entirely of
blank (empty or whitespace-only) lines is rewritten to the empty list,
and no generative-service call is made (lines 374–375). -/
theorem c8_blank_exec (o : Oracle) (es : JArr) (pl : Option JVal)
    (h : execAllBlank es = true) :
    processExec o (.arr es) pl = (.arr .nil, []) := by
  simp [processExec, h]

theorem c8_blank_exec_witness :
    execAllBlank (.cons (.str "") (.cons (.str "   ") .nil)) = true ∧
    processExec oracleAllError (.arr (.cons (.str "") (.cons (.str "   ") .nil))) none
      = (.arr .nil, []) :=
  ⟨by decide, c8_blank_exec oracleAllError _ none (by decide)⟩

/-- C9: whenever the text contains a closing delimiter reached with an
empty scan stack, `detect_syntax_errors` returns a defect recording that
delimiter and the line number it occurs on; and every delimiter left on
the stack at the end of the scan is reported as unclosed with its opening
line. -/
theorem c9_unmatched_closing (s : String) (pre post : List Char) (c : Char)
    (hs : s.data = pre ++ c :: post)
    (hc : isCloseBracket c = true)
    (hstack : (scanChars pre).stack = []) :
    Defect.unmatchedClosing c (scanChars pre).line ∈ detect_syntax_errors s ∧
    ∀ bl ∈ (scanChars s.data).stack,
      Defect.unclosed bl.1 bl.2 ∈ detect_syntax_errors s := by
  have hc3 : c = ')' ∨ c = '}' ∨ c = ']' := by
    simp only [isCloseBracket, Bool.or_eq_true, decide_eq_true_eq] at hc
    tauto
  constructor
  · have hstep : scanStep (scanChars pre) c =
        { scanChars pre with errs := (scanChars pre).errs ++ [.unmatchedClosing c (scanChars pre).line] } := by
      rcases hc3 with h | h | h <;> subst h <;>
        simp [scanStep, hstack, isOpenBracket, isCloseBracket]
    have : Defect.unmatchedClosing c (scanChars pre).line ∈ (scanChars s.data).errs := by
      have : scanChars s.data = post.foldl scanStep (scanStep (scanChars pre) c) := by
        rw [hs]
        simp [scanChars, List.foldl_append]
      rw [this]
      apply mem_errs_of_mem_foldl
      rw [hstep]
      simp
    unfold detect_syntax_errors
    exact List.mem_append_left _ (List.mem_append_left _ (List.mem_append_left _
      (List.mem_append_left _ this)))
  · intro bl hbl
    unfold detect_syntax_errors
    apply List.mem_append_left
    apply List.mem_append_left
    apply List.mem_append_left
    apply List.mem_append_right
    simp only [List.mem_map, List.mem_reverse]
    exact ⟨bl, hbl, rfl⟩

theorem c9_unmatched_closing_witness :
    "foo());".data = "foo()".data ++ ')' :: ";".data ∧
    (scanChars "foo()".data).stack = [] ∧
    (scanChars "foo()".data).line = 1 ∧
    Defect.unmatchedClosing ')' (scanChars "foo()".data).line ∈ detect_syntax_errors "foo());" :=
  ⟨by decide, by decide, by decide,
   (c9_unmatched_closing "foo());" "foo()".data ";".data ')'
     (by decide) (by decide) (by decide)).1⟩

/-- C10: `validate_as_v22_but_save_as_v21` is not atomic on error — it
first injects an `info` object if missing and overwrites `info.schema`
with the modern v2.2.0 identifier; when validation then raises, the
document is left in that mutated state, carrying the v2.2.0 schema
identifier. -/
theorem c10_mutated_on_failure (val : JVal → Except String Unit) (fs : JObj)
    (e : String) (d : JVal)
    (hd : relabelV22 fs = some d)
    (hval : val d = .error e) :
    validate_as_v22_but_save_as_v21 val (.obj fs) = (.error (e, d), true) ∧
    infoSchemaOf d = some (.str schemaV22) := by
  unfold relabelV22 at hd
  cases hinfo : lookupJ (injectInfo fs) "info" with
  | none => rw [hinfo] at hd; simp at hd
  | some iv =>
      cases iv with
      | obj ifs =>
          rw [hinfo] at hd
          simp only [Option.some.injEq] at hd
          subst hd
          constructor
          · simp only [validate_as_v22_but_save_as_v21, hinfo, hval]
          · simp [infoSchemaOf, lookupJ_setKeyJ_self]
      | null => rw [hinfo] at hd; simp at hd
      | bool b => rw [hinfo] at hd; simp at hd
      | num n => rw [hinfo] at hd; simp at hd
      | str s2 => rw [hinfo] at hd; simp at hd
      | arr xs => rw [hinfo] at hd; simp at hd

theorem c10_mutated_on_failure_witness :
    relabelV22 .nil = some (.obj (.cons "info" (.obj (.cons "schema" (.str schemaV22) .nil)) .nil)) ∧
    (validate_as_v22_but_save_as_v21 valReject (.obj .nil)).1
      = .error ("E", .obj (.cons "info" (.obj (.cons "schema" (.str schemaV22) .nil)) .nil)) :=
  ⟨by decide, by
    have h := c10_mutated_on_failure valReject .nil "E"
      (.obj (.cons "info" (.obj (.cons "schema" (.str schemaV22) .nil)) .nil))
      (by decide) rfl
    rw [h.1]⟩

/-- C6: for a converted document that fails its first validation, the
validation loop makes exactly one whole-document repair call
(`generate_postman_v22_again`), at most two validator invocations in
total (exactly one re-validation when the repaired text parses), and if
the second attempt also fails the document is recorded as rejected with
both error messages; no further repair or validation is attempted. -/
theorem c6_single_repair_round (ro : RepairOracle) (val : JVal → Except String Unit)
    (raw : String) (data : JVal) (e : String) (d : JVal) (b : Bool)
    (hp : ro.parse raw = .ok data)
    (hf : validate_as_v22_but_save_as_v21 val data = (.error (e, d), b)) :
    (finalizeDoc ro val raw).2.repairCalls = 1 ∧
    (finalizeDoc ro val raw).2.validateCalls ≤ 2 ∧
    (∀ f parsed e2 d2 b2, ro.repair raw = .ok f → ro.parse f = .ok parsed →
      validate_as_v22_but_save_as_v21 val parsed = (.error (e2, d2), b2) →
      (finalizeDoc ro val raw).1 = .invalid e e2) ∧
    (∀ e2, ro.repair raw = .error e2 → (finalizeDoc ro val raw).1 = .invalid e e2) := by
  have hfin : finalizeDoc ro val raw =
      (match ro.repair raw with
        | .error e2 => (.invalid e e2, ⟨1, if b then 1 else 0⟩)
        | .ok fixed =>
            match ro.parse fixed with
            | .error e2 => (.invalid e e2, ⟨1, if b then 1 else 0⟩)
            | .ok parsed =>
                match validate_as_v22_but_save_as_v21 val parsed with
                | (.ok dd, _) => (.valid dd true, ⟨1, (if b then 1 else 0) + 1⟩)
                | (.error (e2, _), b2) =>
                    (.invalid e e2, ⟨1, (if b then 1 else 0) + (if b2 then 1 else 0)⟩)) := by
    simp only [finalizeDoc, hp, hf]
  refine ⟨?_, ?_, ?_, ?_⟩
  · rw [hfin]
    cases hr : ro.repair raw with
    | error e2 => simp
    | ok fixed =>
        cases hpf : ro.parse fixed with
        | error e2 => simp [hpf]
        | ok parsed =>
            rcases hv2 : validate_as_v22_but_save_as_v21 val parsed with ⟨r2, b2⟩
            cases r2 with
            | ok dd => simp [hpf, hv2]
            | error p => rcases p with ⟨e2, d2⟩; simp [hpf, hv2]
  · rw [hfin]
    cases hr : ro.repair raw with
    | error e2 => cases b <;> simp
    | ok fixed =>
        cases hpf : ro.parse fixed with
        | error e2 => cases b <;> simp [hpf]
        | ok parsed =>
            rcases hv2 : validate_as_v22_but_save_as_v21 val parsed with ⟨r2, b2⟩
            cases r2 with
            | ok dd => cases b <;> simp [hpf, hv2]
            | error p => rcases p with ⟨e2, d2⟩; cases b <;> cases b2 <;> simp [hpf, hv2]
  · intro f parsed e2 d2 b2 hr hpf hv2
    rw [hfin, hr]
    simp [hpf, hv2]
  · intro e2 hr
    rw [hfin, hr]

theorem c6_single_repair_round_witness :
    repairOracle0.parse "x" = .ok (.obj .nil) ∧
    validate_as_v22_but_save_as_v21 valReject (.obj .nil)
      = (.error ("E", .obj (.cons "info" (.obj (.cons "schema" (.str schemaV22) .nil)) .nil)), true) ∧
    (finalizeDoc repairOracle0 valReject "x").2.repairCalls = 1 :=
  ⟨rfl, rfl,
   (c6_single_repair_round repairOracle0 valReject "x" (.obj .nil) "E"
      (.obj (.cons "info" (.obj (.cons "schema" (.str schemaV22) .nil)) .nil)) true
      rfl rfl).1⟩

/-! ## Lemmas on the conversion loop -/

theorem genCount_cons_gen (a : Nat) (evs : List CallEv) :
    genCount (CallEv.gen a :: evs) = genCount evs + 1 := by
  simp [genCount, List.countP_cons, isGenEv]

theorem genCount_cons_genFix (evs : List CallEv) :
    genCount (CallEv.genFix :: evs) = genCount evs := by
  simp [genCount, List.countP_cons, isGenEv]

theorem genCount_cons_fixSyn (evs : List CallEv) :
    genCount (CallEv.fixSyn :: evs) = genCount evs := by
  simp [genCount, List.countP_cons, isGenEv]

theorem genOnly_cons_gen (a : Nat) (evs : List CallEv) :
    genOnly (CallEv.gen a :: evs) = genOnly evs := by
  simp [genOnly, isGenEv]

theorem genCount_fallbackSyn (o : Oracle) (stext c2 : String) :
    genCount (fallbackSyn o stext c2).2 = 0 := by
  cases h : o.fixSyn c2 stext <;> simp [fallbackSyn, h, genCount, List.countP_cons, isGenEv]

theorem genCount_fallbackFix (o : Oracle) (stext stype c : String) :
    genCount (fallbackFix o stext stype c).2 = 0 := by
  unfold fallbackFix
  by_cases hcomp : is_script_complete c = true
  · simp [hcomp, genCount_fallbackSyn]
  · simp only [Bool.not_eq_true] at hcomp
    cases hg : o.genFix c stext stype with
    | error m => simp [hcomp, hg, genCount, List.countP_cons, isGenEv]
    | ok f =>
        simp only [hcomp, hg, Bool.false_eq_true, if_false]
        rw [genCount_cons_genFix]
        exact genCount_fallbackSyn o stext (c ++ pyStrip f)

theorem fallbackFix_mem_fix (o : Oracle) (stext stype c : String) :
    CallEv.genFix ∈ (fallbackFix o stext stype c).2 ∨
    CallEv.fixSyn ∈ (fallbackFix o stext stype c).2 := by
  unfold fallbackFix
  by_cases hcomp : is_script_complete c = true
  · right
    simp only [hcomp, if_true]
    cases h : o.fixSyn c stext <;> simp [fallbackSyn, h]
  · left
    simp only [Bool.not_eq_true] at hcomp
    cases hg : o.genFix c stext stype <;> simp [hcomp, hg]

theorem fallbackFix_error_empty (o : Oracle) (stext stype c : String)
    (hg : ∃ m, o.genFix c stext stype = .error m)
    (hs : ∃ m, o.fixSyn c stext = .error m) :
    (fallbackFix o stext stype c).1 = [] := by
  unfold fallbackFix
  by_cases hcomp : is_script_complete c = true
  · obtain ⟨m, hm⟩ := hs
    simp [hcomp, fallbackSyn, hm]
  · simp only [Bool.not_eq_true] at hcomp
    obtain ⟨m, hm⟩ := hg
    simp [hcomp, hm]

theorem failsAt_of_error (o : Oracle) (stext stype : String) (j : Nat)
    (h : ∃ m, o.gen stext stype j = .error m) :
    failsAt o stext stype j = true := by
  obtain ⟨m, hm⟩ := h
  simp [failsAt, hm]

/-- The loop makes at most `fuel` conversion attempts. -/
theorem genCount_runAttempts_le (o : Oracle) (stext stype : String) :
    ∀ (fuel attempt : Nat), genCount (runAttempts o stext stype attempt fuel).2 ≤ fuel
  | 0, attempt => by simp [runAttempts, genCount]
  | fuel + 1, attempt => by
      have ih := genCount_runAttempts_le o stext stype fuel (attempt + 1)
      cases hg : o.gen stext stype attempt with
      | error m =>
          by_cases hf : fuel = 0
          · subst hf
            simp [runAttempts, hg, genCount, List.countP_cons, isGenEv]
          · simp only [runAttempts, hg, hf, if_false]
            rw [genCount_cons_gen]
            omega
      | ok raw =>
          by_cases ha : acceptScript (cleanOf raw) = true
          · simp [runAttempts, hg, ha, genCount, List.countP_cons, isGenEv]
          · simp only [Bool.not_eq_true] at ha
            by_cases he : cleanOf raw = ""
            · have ha0 : acceptScript "" = false := by decide
              simp [runAttempts, hg, he, ha0, genCount, List.countP_cons, isGenEv]
            · by_cases hf : fuel = 0
              · subst hf
                simp only [runAttempts, hg, ha, Bool.false_eq_true, if_false, he, if_true,
                  genCount_cons_gen, genCount_fallbackFix]
                all_goals omega
              · simp only [runAttempts, hg, ha, Bool.false_eq_true, if_false, he, hf, if_true,
                  genCount_cons_gen]
                all_goals omega

/-- When every round up to the cap fails and the capping round raises,
the loop writes an empty `exec` and makes only `gen` calls. -/
theorem runAttempts_exhaust_error (o : Oracle) (stext stype : String) :
    ∀ (fuel attempt : Nat), 1 ≤ fuel →
      (∀ j, j < fuel → failsAt o stext stype (attempt + j) = true) →
      (∃ m, o.gen stext stype (attempt + fuel - 1) = .error m) →
      (runAttempts o stext stype attempt fuel).1 = [] ∧
      genOnly (runAttempts o stext stype attempt fuel).2 = true ∧
      genCount (runAttempts o stext stype attempt fuel).2 = fuel
  | 0, attempt => by omega
  | fuel + 1, attempt => by
      intro _ hfail herr
      cases hg : o.gen stext stype attempt with
      | error m =>
          by_cases hf : fuel = 0
          · subst hf
            simp [runAttempts, hg, genOnly, isGenEv, genCount, List.countP_cons]
          · have ih := runAttempts_exhaust_error o stext stype fuel (attempt + 1)
              (by omega)
              (fun j hj => by
                have h2 : attempt + 1 + j = attempt + (j + 1) := by omega
                rw [h2]; exact hfail (j + 1) (by omega))
              (by
                have h2 : attempt + 1 + fuel - 1 = attempt + (fuel + 1) - 1 := by omega
                rw [h2]; exact herr)
            simp only [runAttempts, hg, hf, if_false]
            exact ⟨ih.1, by rw [genOnly_cons_gen]; exact ih.2.1,
              by rw [genCount_cons_gen, ih.2.2]⟩
      | ok raw =>
          have h0 := hfail 0 (by omega)
          simp only [Nat.add_zero] at h0
          simp only [failsAt, hg, Bool.and_eq_true, Bool.not_eq_eq_eq_not, Bool.not_true,
            decide_eq_false_iff_not] at h0
          obtain ⟨ha, he⟩ := h0
          by_cases hf : fuel = 0
          · subst hf
            obtain ⟨m, hm⟩ := herr
            have h2 : attempt + (0 + 1) - 1 = attempt := by omega
            rw [h2, hg] at hm
            cases hm
          · have ih := runAttempts_exhaust_error o stext stype fuel (attempt + 1)
              (by omega)
              (fun j hj => by
                have h2 : attempt + 1 + j = attempt + (j + 1) := by omega
                rw [h2]; exact hfail (j + 1) (by omega))
              (by
                have h2 : attempt + 1 + fuel - 1 = attempt + (fuel + 1) - 1 := by omega
                rw [h2]; exact herr)
            simp only [runAttempts, hg, ha, Bool.false_eq_true, if_false, he, hf, if_true]
            exact ⟨ih.1, by rw [genOnly_cons_gen]; exact ih.2.1,
              by rw [genCount_cons_gen, ih.2.2]⟩

/-- When every round up to the cap fails and the capping round returned a
defective non-empty script, the loop falls through to the fallback: the
written `exec` is the fallback's result and the trace is the `gen` calls
followed by the fallback's calls. -/
theorem runAttempts_exhaust_defect (o : Oracle) (stext stype : String) :
    ∀ (fuel attempt : Nat) (raw : String), 1 ≤ fuel →
      (∀ j, j < fuel → failsAt o stext stype (attempt + j) = true) →
      o.gen stext stype (attempt + fuel - 1) = .ok raw →
      (runAttempts o stext stype attempt fuel).1 = (fallbackFix o stext stype (cleanOf raw)).1 ∧
      ∃ gevs, genOnly gevs = true ∧ genCount gevs = fuel ∧
        (runAttempts o stext stype attempt fuel).2 = gevs ++ (fallbackFix o stext stype (cleanOf raw)).2
  | 0, attempt, raw => by omega
  | fuel + 1, attempt, raw => by
      intro _ hfail hlast
      have h0 := hfail 0 (by omega)
      simp only [Nat.add_zero] at h0
      cases hg : o.gen stext stype attempt with
      | error m =>
          by_cases hf : fuel = 0
          · subst hf
            have h2 : attempt + (0 + 1) - 1 = attempt := by omega
            rw [h2, hg] at hlast
            cases hlast
          · have ih := runAttempts_exhaust_defect o stext stype fuel (attempt + 1) raw
              (by omega)
              (fun j hj => by
                have h2 : attempt + 1 + j = attempt + (j + 1) := by omega
                rw [h2]; exact hfail (j + 1) (by omega))
              (by
                have h2 : attempt + 1 + fuel - 1 = attempt + (fuel + 1) - 1 := by omega
                rw [h2]; exact hlast)
            simp only [runAttempts, hg, hf, if_false]
            obtain ⟨gevs, hgo, hgc, htr⟩ := ih.2
            exact ⟨ih.1, CallEv.gen attempt :: gevs,
              by rw [genOnly_cons_gen]; exact hgo,
              by rw [genCount_cons_gen, hgc],
              by rw [htr]; simp⟩
      | ok raw0 =>
          simp only [failsAt, hg, Bool.and_eq_true, Bool.not_eq_eq_eq_not, Bool.not_true,
            decide_eq_false_iff_not] at h0
          obtain ⟨ha, he⟩ := h0
          by_cases hf : fuel = 0
          · subst hf
            have h2 : attempt + (0 + 1) - 1 = attempt := by omega
            rw [h2, hg] at hlast
            cases hlast
            constructor
            · simp [runAttempts, hg, ha, he]
            · exact ⟨[CallEv.gen attempt], by simp [genOnly, isGenEv],
                by simp [genCount, List.countP_cons, isGenEv],
                by simp [runAttempts, hg, ha, he]⟩
          · have ih := runAttempts_exhaust_defect o stext stype fuel (attempt + 1) raw
              (by omega)
              (fun j hj => by
                have h2 : attempt + 1 + j = attempt + (j + 1) := by omega
                rw [h2]; exact hfail (j + 1) (by omega))
              (by
                have h2 : attempt + 1 + fuel - 1 = attempt + (fuel + 1) - 1 := by omega
                rw [h2]; exact hlast)
            simp only [runAttempts, hg, ha, Bool.false_eq_true, if_false, he, hf, if_true]
            obtain ⟨gevs, hgo, hgc, htr⟩ := ih.2
            exact ⟨ih.1, CallEv.gen attempt :: gevs,
              by rw [genOnly_cons_gen]; exact hgo,
              by rw [genCount_cons_gen, hgc],
              by rw [htr]; simp⟩

/-- When the rounds before round `k` fail and round `k` (below the cap)
returns a clean script, the loop accepts exactly that round's cleaned
response — the buffer is replaced each round, and no fallback call is
made below the cap. -/
theorem runAttempts_accept (o : Oracle) (stext stype : String) :
    ∀ (fuel k attempt : Nat) (raw : String), k < fuel →
      (∀ j, j < k → failsAt o stext stype (attempt + j) = true) →
      o.gen stext stype (attempt + k) = .ok raw →
      acceptScript (cleanOf raw) = true →
      (runAttempts o stext stype attempt fuel).1 = pySplitlines (cleanOf raw) ∧
      genOnly (runAttempts o stext stype attempt fuel).2 = true ∧
      genCount (runAttempts o stext stype attempt fuel).2 = k + 1
  | 0, k, attempt, raw => by omega
  | fuel + 1, 0, attempt, raw => by
      intro _ hfail hk haccept
      simp only [Nat.add_zero] at hk
      simp [runAttempts, hk, haccept, genOnly, isGenEv, genCount, List.countP_cons]
  | fuel + 1, k + 1, attempt, raw => by
      intro hlt hfail hk haccept
      have h0 := hfail 0 (by omega)
      simp only [Nat.add_zero] at h0
      have ih := runAttempts_accept o stext stype fuel k (attempt + 1) raw (by omega)
        (fun j hj => by
          have h2 : attempt + 1 + j = attempt + (j + 1) := by omega
          rw [h2]; exact hfail (j + 1) (by omega))
        (by
          have h2 : attempt + 1 + k = attempt + (k + 1) := by omega
          rw [h2]; exact hk)
        haccept
      cases hg : o.gen stext stype attempt with
      | error m =>
          have hf : fuel ≠ 0 := by omega
          simp only [runAttempts, hg, hf, if_false]
          exact ⟨ih.1, by rw [genOnly_cons_gen]; exact ih.2.1,
            by rw [genCount_cons_gen, ih.2.2]⟩
      | ok raw0 =>
          simp only [failsAt, hg, Bool.and_eq_true, Bool.not_eq_eq_eq_not, Bool.not_true,
            decide_eq_false_iff_not] at h0
          obtain ⟨ha, he⟩ := h0
          have hf : fuel ≠ 0 := by omega
          simp only [runAttempts, hg, ha, Bool.false_eq_true, if_false, he, hf, if_true]
          exact ⟨ih.1, by rw [genOnly_cons_gen]; exact ih.2.1,
            by rw [genCount_cons_gen, ih.2.2]⟩

/-- C1 (amended): the conversion loop never makes more than
`max_attempts = 8` generation attempts.  When the cap is reached after a
round whose cleaned output was defective but non-empty, the loop falls
through to the best-effort fix calls (`generate_script_v22_fix` /
`fix_syntax_v22`) and accepts their result; when the cap is reached by a
service exception on the final round (the earlier rounds having failed
either way — by exception or by defective output), the loop writes an
empty `exec` without any fix call. -/
theorem c1_attempt_cap_and_fallback (o : Oracle) (stext stype : String) :
    genCount (convertText o stext stype).2 ≤ max_attempts ∧
    (∀ raw, (∀ j, j < max_attempts → failsAt o stext stype j = true) →
      o.gen stext stype (max_attempts - 1) = .ok raw →
      (convertText o stext stype).1 = (fallbackFix o stext stype (cleanOf raw)).1 ∧
      (CallEv.genFix ∈ (convertText o stext stype).2 ∨
       CallEv.fixSyn ∈ (convertText o stext stype).2)) ∧
    ((∀ j, j < max_attempts → failsAt o stext stype j = true) →
      (∃ m, o.gen stext stype (max_attempts - 1) = .error m) →
      (convertText o stext stype).1 = [] ∧
      genOnly (convertText o stext stype).2 = true) := by
  refine ⟨genCount_runAttempts_le o stext stype max_attempts 0, ?_, ?_⟩
  · intro raw hfail hlast
    have hd := runAttempts_exhaust_defect o stext stype max_attempts 0 raw (by decide)
      (fun j hj => by simpa using hfail j hj)
      (by simpa using hlast)
    refine ⟨hd.1, ?_⟩
    obtain ⟨gevs, _, _, htr⟩ := hd.2
    rcases fallbackFix_mem_fix o stext stype (cleanOf raw) with hm | hm
    · exact Or.inl (by rw [convertText, htr]; exact List.mem_append_right _ hm)
    · exact Or.inr (by rw [convertText, htr]; exact List.mem_append_right _ hm)
  · intro hfail herr
    have he := runAttempts_exhaust_error o stext stype max_attempts 0 (by decide)
      (fun j hj => by simpa using hfail j hj)
      (by simpa using herr)
    exact ⟨he.1, he.2.1⟩

theorem c1_attempt_cap_and_fallback_witness :
    ((∀ j, j < max_attempts → failsAt oracleAllDefect "x" "test" j = true) ∧
     (convertText oracleAllDefect "x" "test").1
       = (fallbackFix oracleAllDefect "x" "test" (cleanOf "foo(")).1) ∧
    ((∀ j, j < max_attempts → failsAt oracleMixedCap "x" "test" j = true) ∧
     (∃ m, oracleMixedCap.gen "x" "test" (max_attempts - 1) = .error m) ∧
     (convertText oracleMixedCap "x" "test").1 = []) :=
  ⟨⟨by decide,
    ((c1_attempt_cap_and_fallback oracleAllDefect "x" "test").2.1 "foo(" (by decide) rfl).1⟩,
   by decide, ⟨"boom", rfl⟩,
   ((c1_attempt_cap_and_fallback oracleMixedCap "x" "test").2.2 (by decide) ⟨"boom", rfl⟩).1⟩

/-- C1 counterexample: with a service that raises on every call, the cap
of 8 attempts is reached yet no `generate_script_v22_fix` or
`fix_syntax_v22` call is made — the exec is set to the empty list
directly, contradicting the claim that reaching the cap always falls
through to a syntax-fix call. -/
theorem c1_counterexample :
    genCount (convertText oracleAllError "x" "test").2 = max_attempts ∧
    CallEv.genFix ∉ (convertText oracleAllError "x" "test").2 ∧
    CallEv.fixSyn ∉ (convertText oracleAllError "x" "test").2 ∧
    (convertText oracleAllError "x" "test").1 = [] := by decide

/-- C2 (amended): failures of the per-script block degrade to a written
`exec` value rather than an exception: when every attempt raises, or when
the capping round was defective and the fallback service calls raise too,
the script's `exec` becomes the empty list. -/
theorem c2_never_throws_degrade (o : Oracle) (stext stype : String) :
    ((∀ j, j < max_attempts → ∃ m, o.gen stext stype j = .error m) →
      (convertText o stext stype).1 = []) ∧
    (∀ raw, (∀ j, j < max_attempts → failsAt o stext stype j = true) →
      o.gen stext stype (max_attempts - 1) = .ok raw →
      (∃ m, o.genFix (cleanOf raw) stext stype = .error m) →
      (∃ m, o.fixSyn (cleanOf raw) stext = .error m) →
      (convertText o stext stype).1 = []) := by
  constructor
  · intro herr
    exact (runAttempts_exhaust_error o stext stype max_attempts 0 (by decide)
      (fun j hj => failsAt_of_error o stext stype (0 + j) (by simpa using herr j (by simpa using hj)))
      (by simpa using herr (max_attempts - 1) (by decide))).1
  · intro raw hfail hlast hgfix hsfix
    have hd := runAttempts_exhaust_defect o stext stype max_attempts 0 raw (by decide)
      (fun j hj => by simpa using hfail j hj)
      (by simpa using hlast)
    rw [convertText, hd.1]
    exact fallbackFix_error_empty o stext stype (cleanOf raw) hgfix hsfix

theorem c2_never_throws_degrade_witness :
    (∀ j, j < max_attempts → failsAt oracleDefectFixFail "x" "test" j = true) ∧
    (convertText oracleDefectFixFail "x" "test").1 = [] :=
  ⟨by decide,
   (c2_never_throws_degrade oracleDefectFixFail "x" "test").2 "foo(" (by decide) rfl
     ⟨"fe", rfl⟩ ⟨"fe", rfl⟩⟩

/-- C2 counterexample: attempts can be exhausted (8 generation calls)
without the exec degrading to an empty sequence — with every round
returning the defective `"foo("` and the fallback succeeding, the loop
writes the non-empty repaired script `["foo();"]`. -/
theorem c2_counterexample :
    genCount (convertText oracleAllDefect "x" "test").2 = max_attempts ∧
    (convertText oracleAllDefect "x" "test").1 = ["foo();"] ∧
    (convertText oracleAllDefect "x" "test").1 ≠ [] := by decide

/-- C3 (amended): a repair round below the cap that produces a clean
script yields exactly that round's cleaned response as the new `exec` —
each round replaces the buffer with a fresh conversion and no
continuation call is made below the cap; text is appended onto the
existing buffer only by the post-cap fallback's continuation call, which
concatenates the stripped `generate_script_v22_fix` result onto the
buffer before the final `fix_syntax_v22` call. -/
theorem c3_repair_rounds_replace (o : Oracle) (stext stype : String) :
    (∀ (k : Nat) (raw : String), k < max_attempts →
      (∀ j, j < k → failsAt o stext stype j = true) →
      o.gen stext stype k = .ok raw →
      acceptScript (cleanOf raw) = true →
      (convertText o stext stype).1 = pySplitlines (cleanOf raw) ∧
      genOnly (convertText o stext stype).2 = true) ∧
    (∀ c f, is_script_complete c = false → o.genFix c stext stype = .ok f →
      fallbackFix o stext stype c =
        ((fallbackSyn o stext (c ++ pyStrip f)).1,
         CallEv.genFix :: (fallbackSyn o stext (c ++ pyStrip f)).2)) := by
  constructor
  · intro k raw hk hfail hgen haccept
    have h := runAttempts_accept o stext stype max_attempts k 0 raw hk
      (fun j hj => by simpa using hfail j hj)
      (by simpa using hgen) haccept
    exact ⟨h.1, h.2.1⟩
  · intro c f hcomp hfix
    simp [fallbackFix, hcomp, hfix]

theorem c3_repair_rounds_replace_witness :
    (∀ j, j < 1 → failsAt oracleTwoRounds "x" "test" j = true) ∧
    (convertText oracleTwoRounds "x" "test").1 = pySplitlines (cleanOf "bar();") ∧
    is_script_complete "foo(" = false ∧
    fallbackFix oracleAllDefect "x" "test" "foo(" =
      ((fallbackSyn oracleAllDefect "x" ("foo(" ++ pyStrip ");")).1,
       CallEv.genFix :: (fallbackSyn oracleAllDefect "x" ("foo(" ++ pyStrip ");")).2) :=
  ⟨by decide,
   ((c3_repair_rounds_replace oracleTwoRounds "x" "test").1 1 "bar();" (by decide)
     (by decide) rfl (by decide)).1,
   by decide,
   (c3_repair_rounds_replace oracleAllDefect "x" "test").2 "foo(" ");" (by decide) rfl⟩

/-- C3 counterexample: after a defective first round (buffer `"foo("`),
the second round issues a fresh conversion, not a continuation — the
trace contains only `gen` calls and the accepted text `"bar();"` does not
extend the previous buffer, contradicting the claim that rounds after the
first append continuation text onto the buffer. -/
theorem c3_counterexample :
    convertText oracleTwoRounds "x" "test" = (["bar();"], [.gen 0, .gen 1]) ∧
    cleanOf "foo(" = "foo(" ∧
    CallEv.genFix ∉ (convertText oracleTwoRounds "x" "test").2 ∧
    pyStartsWith "bar();" "foo(" = false := by decide

/-! ## Lemmas on the tree walker -/

theorem pathsOf_consStep (s : Step) (vs : List Visit) :
    pathsOf (consStep s vs) = (pathsOf vs).map (s :: ·) := by
  simp [pathsOf, consStep]

theorem pathsOf_append (vs ws : List Visit) :
    pathsOf (vs ++ ws) = pathsOf vs ++ pathsOf ws := by
  simp [pathsOf]

theorem hasKeyJ_cons (k : String) (v : JVal) (tl : JObj) (q : String) :
    hasKeyJ (.cons k v tl) q = (k = q || hasKeyJ tl q) := by
  by_cases h : k = q <;> simp [hasKeyJ, lookupJ, h]

theorem lookupJ_cons_ne (k : String) (v : JVal) (tl : JObj) (q : String) (h : k ≠ q) :
    lookupJ (.cons k v tl) q = lookupJ tl q := by
  simp [lookupJ, h]

/-- Shapes of the paths recorded by the event-list loop. -/
theorem walkEvents_paths (o : Oracle) :
    ∀ (es : JArr) (i : Nat), ∀ v ∈ (walkEvents o es i).2,
      ∃ j q, v.path = .idx j :: q ∧ i ≤ j
  | .nil, i => by simp [walkEvents]
  | .cons e tl, i => by
      intro v hv
      simp only [walkEvents, List.mem_append] at hv
      rcases hv with hv | hv
      · match e, hv with
        | .obj efs, hv =>
            by_cases hs : hasKeyJ efs "script" = true
            · simp only [hs, if_true, consStep, List.mem_map] at hv
              obtain ⟨w, _, rfl⟩ := hv
              exact ⟨i, w.path, rfl, le_refl i⟩
            · simp only [Bool.not_eq_true] at hs
              simp [hs] at hv
      · obtain ⟨j, q, hp, hj⟩ := walkEvents_paths o tl (i + 1) v hv
        exact ⟨j, q, hp, by omega⟩

theorem walkItems_paths (o : Oracle) :
    ∀ (es : JArr) (i : Nat), ∀ v ∈ (walkItems o es i).2,
      ∃ j q, v.path = .idx j :: q ∧ i ≤ j
  | .nil, i => by simp [walkItems]
  | .cons e tl, i => by
      intro v hv
      simp only [walkItems, List.mem_append, consStep, List.mem_map] at hv
      rcases hv with ⟨w, _, rfl⟩ | hv
      · exact ⟨i, w.path, rfl, le_refl i⟩
      · obtain ⟨j, q, hp, hj⟩ := walkItems_paths o tl (i + 1) v hv
        exact ⟨j, q, hp, by omega⟩

theorem walkArr_paths (o : Oracle) :
    ∀ (es : JArr) (pl : Option JVal) (i : Nat), ∀ v ∈ (walkArr o es pl i).2,
      ∃ j q, v.path = .idx j :: q ∧ i ≤ j
  | .nil, pl, i => by simp [walkArr]
  | .cons e tl, pl, i => by
      intro v hv
      simp only [walkArr, List.mem_append, consStep, List.mem_map] at hv
      rcases hv with ⟨w, _, rfl⟩ | hv
      · exact ⟨i, w.path, rfl, le_refl i⟩
      · obtain ⟨j, q, hp, hj⟩ := walkArr_paths o tl pl (i + 1) v hv
        exact ⟨j, q, hp, by omega⟩


/-- Shapes of the paths recorded while processing a dict's fields: the
empty path only for this dict's own script, a `.key` head only for a
present key. -/
theorem walkF_paths (o : Oracle) (fs0 : JObj) (pl0 : Option JVal) :
    ∀ v ∈ (walkF o fs0 pl0).2,
      (v.path = [] ∧ hasKeyJ fs0 "script" = true) ∨
      (∃ k q, v.path = .key k :: q ∧ hasKeyJ fs0 k = true) := by
  have main : ∀ (n : Nat) (fs : JObj) (pl : Option JVal), sizeOf fs ≤ n →
      ∀ v ∈ (walkF o fs pl).2,
        (v.path = [] ∧ hasKeyJ fs "script" = true) ∨
        (∃ k q, v.path = .key k :: q ∧ hasKeyJ fs k = true) := by
    intro n
    induction n with
    | zero =>
        intro fs pl hle
        cases fs with
        | nil => simp [walkF]
        | cons k v0 tl => simp at hle
    | succ n ih =>
        intro fs pl hle v hv
        cases fs with
        | nil => simp [walkF] at hv
        | cons k v0 tl =>
            have htl : sizeOf tl ≤ n := by
              have := JObj.cons.sizeOf_spec k v0 tl
              have hpos : 0 < sizeOf v0 := by
                cases v0 <;> simp
              omega
            rw [walkF.eq_def] at hv
            simp only [List.mem_append] at hv
            rcases hv with hv | hv
            · by_cases hk : k = "event"
              · subst hk
                simp only [if_true] at hv
                match v0, hv with
                | .arr es, hv =>
                    simp only [consStep, List.mem_map] at hv
                    obtain ⟨w, _, rfl⟩ := hv
                    exact Or.inr ⟨"event", w.path, rfl, by simp [hasKeyJ_cons]⟩
                | .null, hv => simp at hv
                | .bool b, hv => simp at hv
                | .num n2, hv => simp at hv
                | .str s, hv => simp at hv
                | .obj fs2, hv => simp at hv
              · by_cases hk2 : k = "script"
                · subst hk2
                  simp only [hk, if_false, if_true] at hv
                  match v0, hv with
                  | .obj sfs, hv =>
                      cases hex : lookupJ sfs "exec" with
                      | some ex =>
                          simp only [hex, List.mem_singleton] at hv
                          subst hv
                          exact Or.inl ⟨rfl, by simp [hasKeyJ_cons]⟩
                      | none => simp [hex] at hv
                  | .null, hv => simp at hv
                  | .bool b, hv => simp at hv
                  | .num n2, hv => simp at hv
                  | .str s, hv => simp at hv
                  | .arr es, hv => simp at hv
                · by_cases hk3 : k = "item"
                  · subst hk3
                    simp only [hk, hk2, if_false, if_true] at hv
                    match v0, hv with
                    | .arr es, hv =>
                        simp only [consStep, List.mem_map] at hv
                        obtain ⟨w, _, rfl⟩ := hv
                        exact Or.inr ⟨"item", w.path, rfl, by simp [hasKeyJ_cons]⟩
                    | .null, hv => simp at hv
                    | .bool b, hv => simp at hv
                    | .num n2, hv => simp at hv
                    | .str s, hv => simp at hv
                    | .obj fs2, hv => simp at hv
                  · simp only [hk, hk2, hk3, if_false, consStep, List.mem_map] at hv
                    obtain ⟨w, _, rfl⟩ := hv
                    exact Or.inr ⟨k, w.path, rfl, by simp [hasKeyJ_cons]⟩
            · rcases ih tl pl htl v hv with ⟨hp, hs⟩ | ⟨k2, q, hp, hs⟩
              · exact Or.inl ⟨hp, by simp [hasKeyJ_cons, hs]⟩
              · exact Or.inr ⟨k2, q, hp, by simp [hasKeyJ_cons, hs]⟩
  exact main (sizeOf fs0) fs0 pl0 (le_refl _)

theorem nodupKeysJ_cons (k : String) (v : JVal) (tl : JObj) :
    nodupKeysJ (.cons k v tl) = true ↔ hasKeyJ tl k = false ∧ nodupKeysJ tl = true := by
  simp [nodupKeysJ]

theorem wfF_cons (k : String) (v : JVal) (tl : JObj) :
    wfF (.cons k v tl) = true ↔ fieldOK k v = true ∧ wfV v = true ∧ wfF tl = true := by
  simp [wfF, and_assoc]

theorem wfA_cons (v : JVal) (tl : JArr) :
    wfA (.cons v tl) = true ↔ wfV v = true ∧ wfA tl = true := by
  simp [wfA]

theorem wfV_obj (fs : JObj) :
    wfV (.obj fs) = true ↔ nodupKeysJ fs = true ∧ wfF fs = true := by
  simp [wfV]

theorem sizeOf_jval_pos (v : JVal) : 0 < sizeOf v := by
  cases v <;> simp_arith

theorem mem_pathsOf (p : List Step) (vs : List Visit) :
    p ∈ pathsOf vs ↔ ∃ w ∈ vs, w.path = p := by
  simp [pathsOf, List.mem_map]

theorem nodup_pathsOf_consStep (s : Step) (vs : List Visit)
    (h : (pathsOf vs).Nodup) : (pathsOf (consStep s vs)).Nodup := by
  rw [pathsOf_consStep]
  exact h.map (fun p q hpq => by simpa using hpq)

theorem mem_pathsOf_consStep (s : Step) (vs : List Visit) (p : List Step)
    (hp : p ∈ pathsOf (consStep s vs)) : ∃ q, p = s :: q ∧ q ∈ pathsOf vs := by
  rw [pathsOf_consStep, List.mem_map] at hp
  obtain ⟨q, hq, rfl⟩ := hp
  exact ⟨q, rfl, hq⟩

theorem disjoint_key_tailF (o : Oracle) (k : String) (tl : JObj) (pl : Option JVal)
    (hk_tl : hasKeyJ tl k = false) (ps : List (List Step))
    (hps : ∀ p ∈ ps, ∃ q, p = Step.key k :: q) :
    ps.Disjoint (pathsOf (walkF o tl pl).2) := by
  intro p hp hptail
  obtain ⟨q, rfl⟩ := hps p hp
  rw [mem_pathsOf] at hptail
  obtain ⟨w, hw, hwp⟩ := hptail
  rcases walkF_paths o tl pl w hw with ⟨hp0, _⟩ | ⟨k2, q2, hp2, hs2⟩
  · rw [hp0] at hwp; cases hwp
  · rw [hp2] at hwp
    obtain ⟨h1, h2⟩ := List.cons.inj hwp
    obtain hk2 := Step.key.inj h1
    rw [hk2] at hs2
    rw [hs2] at hk_tl
    cases hk_tl

theorem disjoint_nil_tailF (o : Oracle) (tl : JObj) (pl : Option JVal)
    (hs_tl : hasKeyJ tl "script" = false) :
    ([([] : List Step)]).Disjoint (pathsOf (walkF o tl pl).2) := by
  intro p hp hptail
  simp only [List.mem_singleton] at hp
  subst hp
  rw [mem_pathsOf] at hptail
  obtain ⟨w, hw, hwp⟩ := hptail
  rcases walkF_paths o tl pl w hw with ⟨hp0, hs0⟩ | ⟨k2, q2, hp2, _⟩
  · rw [hs0] at hs_tl; cases hs_tl
  · rw [hp2] at hwp; cases hwp

theorem disjoint_idx_shapes (i : Nat) (ps qs : List (List Step))
    (hps : ∀ p ∈ ps, ∃ q, p = Step.idx i :: q)
    (hqs : ∀ p ∈ qs, ∃ j q, p = Step.idx j :: q ∧ i + 1 ≤ j) :
    ps.Disjoint qs := by
  intro p hp hq
  obtain ⟨q, rfl⟩ := hps p hp
  obtain ⟨j, q2, heq, hj⟩ := hqs _ hq
  obtain ⟨h1, _⟩ := List.cons.inj heq
  obtain h2 := Step.idx.inj h1
  omega

theorem no_nil_path_tailF (o : Oracle) (tl : JObj) (pl : Option JVal)
    (hs_tl : hasKeyJ tl "script" = false) :
    ∀ w ∈ (walkF o tl pl).2, ¬w.path = [] := by
  intro w hw hpath
  rcases walkF_paths o tl pl w hw with ⟨_, hs0⟩ | ⟨k2, q2, hp2, _⟩
  · rw [hs0] at hs_tl; cases hs_tl
  · rw [hp2] at hpath; cases hpath

/-- No script-holder path is recorded twice, across all five mutual
walker functions, by strong induction on the node size. -/
theorem walk_nodup_all (o : Oracle) : ∀ (n : Nat),
    (∀ (t : JVal) (pl : Option JVal), sizeOf t ≤ n → wfV t = true →
      (pathsOf (walkV o t pl).2).Nodup) ∧
    (∀ (fs : JObj) (pl : Option JVal), sizeOf fs ≤ n →
      nodupKeysJ fs = true → wfF fs = true →
      (pathsOf (walkF o fs pl).2).Nodup) ∧
    (∀ (es : JArr) (i : Nat), sizeOf es ≤ n → wfA es = true →
      (pathsOf (walkEvents o es i).2).Nodup) ∧
    (∀ (es : JArr) (i : Nat), sizeOf es ≤ n → wfA es = true →
      (pathsOf (walkItems o es i).2).Nodup) ∧
    (∀ (es : JArr) (pl : Option JVal) (i : Nat), sizeOf es ≤ n → wfA es = true →
      (pathsOf (walkArr o es pl i).2).Nodup) := by
  intro n
  induction n with
  | zero =>
      refine ⟨?_, ?_, ?_, ?_, ?_⟩
      · intro t pl hle _; exfalso; cases t <;> simp_arith at hle
      · intro fs pl hle _ _; exfalso; cases fs <;> simp_arith at hle
      · intro es i hle _; exfalso; cases es <;> simp_arith at hle
      · intro es i hle _; exfalso; cases es <;> simp_arith at hle
      · intro es pl i hle _; exfalso; cases es <;> simp_arith at hle
  | succ n ih =>
      refine ⟨?_, ?_, ?_, ?_, ?_⟩
      · -- walkV
        intro t pl hle hwf
        cases t with
        | obj fs =>
            rw [wfV_obj] at hwf
            have hsz : sizeOf fs ≤ n := by
              have := JVal.obj.sizeOf_spec fs; omega
            have h := ih.2.1 fs pl hsz hwf.1 hwf.2
            simpa [walkV] using h
        | arr xs =>
            have hsz : sizeOf xs ≤ n := by
              have := JVal.arr.sizeOf_spec xs; omega
            have h := ih.2.2.2.2 xs pl 0 hsz (by simpa [wfV] using hwf)
            simpa [walkV] using h
        | null => simp [walkV, pathsOf]
        | bool b => simp [walkV, pathsOf]
        | num m => simp [walkV, pathsOf]
        | str s => simp [walkV, pathsOf]
      · -- walkF
        intro fs pl hle hnod hwf
        cases fs with
        | nil => simp [walkF, pathsOf]
        | cons k v0 tl =>
            rw [nodupKeysJ_cons] at hnod
            rw [wfF_cons] at hwf
            obtain ⟨hk_tl, hnod_tl⟩ := hnod
            obtain ⟨hfo, hwf_v0, hwf_tl⟩ := hwf
            have hszk := JObj.cons.sizeOf_spec k v0 tl
            have hv0pos := sizeOf_jval_pos v0
            have hsz_tl : sizeOf tl ≤ n := by omega
            have hsz_v0 : sizeOf v0 ≤ n := by omega
            have htail := ih.2.1 tl pl hsz_tl hnod_tl hwf_tl
            rw [walkF.eq_def]
            simp only [pathsOf_append, List.nodup_append]
            by_cases hk : k = "event"
            · subst hk
              cases v0 with
              | arr es =>
                  simp only [if_true]
                  refine ⟨?_, htail, ?_⟩
                  · exact nodup_pathsOf_consStep _ _
                      (ih.2.2.1 es 0 (by have := JVal.arr.sizeOf_spec es; omega)
                        (by simpa [wfV] using hwf_v0))
                  · exact disjoint_key_tailF o "event" tl pl hk_tl _
                      (fun p hp => by
                        obtain ⟨q, hq, _⟩ := mem_pathsOf_consStep _ _ p hp
                        exact ⟨q, hq⟩)
              | null => exact ⟨by simp [pathsOf], htail, by simp [pathsOf, List.Disjoint]⟩
              | bool b => exact ⟨by simp [pathsOf], htail, by simp [pathsOf, List.Disjoint]⟩
              | num m => exact ⟨by simp [pathsOf], htail, by simp [pathsOf, List.Disjoint]⟩
              | str s => exact ⟨by simp [pathsOf], htail, by simp [pathsOf, List.Disjoint]⟩
              | obj fs2 => exact ⟨by simp [pathsOf], htail, by simp [pathsOf, List.Disjoint]⟩
            · by_cases hk2 : k = "script"
              · subst hk2
                cases v0 with
                | obj sfs =>
                    cases hex : lookupJ sfs "exec" with
                    | some ex =>
                        simp only [hk, if_false, if_true, hex]
                        refine ⟨by simp [pathsOf], htail, ?_⟩
                        intro p hp hq
                        simp only [pathsOf, consStep, List.map_cons, List.map_nil,
                          List.mem_singleton] at hp
                        subst hp
                        rw [mem_pathsOf] at hq
                        obtain ⟨w, hw, hwp⟩ := hq
                        exact no_nil_path_tailF o tl pl hk_tl w hw hwp
                    | none =>
                        simp only [hk, if_false, if_true, hex]
                        exact ⟨by simp [pathsOf], htail, by simp [pathsOf, List.Disjoint]⟩
                | null => exact ⟨by simp [hk, pathsOf], htail, by simp [hk, pathsOf, List.Disjoint]⟩
                | bool b => exact ⟨by simp [hk, pathsOf], htail, by simp [hk, pathsOf, List.Disjoint]⟩
                | num m => exact ⟨by simp [hk, pathsOf], htail, by simp [hk, pathsOf, List.Disjoint]⟩
                | str s => exact ⟨by simp [hk, pathsOf], htail, by simp [hk, pathsOf, List.Disjoint]⟩
                | arr es => exact ⟨by simp [hk, pathsOf], htail, by simp [hk, pathsOf, List.Disjoint]⟩
              · by_cases hk3 : k = "item"
                · subst hk3
                  cases v0 with
                  | arr es =>
                      simp only [hk, hk2, if_false, if_true]
                      refine ⟨?_, htail, ?_⟩
                      · exact nodup_pathsOf_consStep _ _
                          (ih.2.2.2.1 es 0 (by have := JVal.arr.sizeOf_spec es; omega)
                            (by simpa [wfV] using hwf_v0))
                      · exact disjoint_key_tailF o "item" tl pl hk_tl _
                          (fun p hp => by
                            obtain ⟨q, hq, _⟩ := mem_pathsOf_consStep _ _ p hp
                            exact ⟨q, hq⟩)
                  | null => exact ⟨by simp [hk, hk2, pathsOf], htail, by simp [hk, hk2, pathsOf, List.Disjoint]⟩
                  | bool b => exact ⟨by simp [hk, hk2, pathsOf], htail, by simp [hk, hk2, pathsOf, List.Disjoint]⟩
                  | num m => exact ⟨by simp [hk, hk2, pathsOf], htail, by simp [hk, hk2, pathsOf, List.Disjoint]⟩
                  | str s => exact ⟨by simp [hk, hk2, pathsOf], htail, by simp [hk, hk2, pathsOf, List.Disjoint]⟩
                  | obj fs2 => exact ⟨by simp [hk, hk2, pathsOf], htail, by simp [hk, hk2, pathsOf, List.Disjoint]⟩
                · simp only [hk, hk2, hk3, if_false]
                  refine ⟨?_, htail, ?_⟩
                  · exact nodup_pathsOf_consStep _ _ (ih.1 v0 pl hsz_v0 hwf_v0)
                  · exact disjoint_key_tailF o k tl pl hk_tl _
                      (fun p hp => by
                        obtain ⟨q, hq, _⟩ := mem_pathsOf_consStep _ _ p hp
                        exact ⟨q, hq⟩)
      · -- walkEvents
        intro es i hle hwf
        cases es with
        | nil => simp [walkEvents, pathsOf]
        | cons e tl =>
            rw [wfA_cons] at hwf
            have hszc := JArr.cons.sizeOf_spec e tl
            have hsz_tl : sizeOf tl ≤ n := by omega
            have hsz_e : sizeOf e ≤ n := by omega
            have htail := ih.2.2.1 tl (i + 1) hsz_tl hwf.2
            have htailsh : ∀ p ∈ pathsOf (walkEvents o tl (i + 1)).2,
                ∃ j q, p = Step.idx j :: q ∧ i + 1 ≤ j := by
              intro p hp
              rw [mem_pathsOf] at hp
              obtain ⟨w, hw, hwp⟩ := hp
              obtain ⟨j, q, hq, hj⟩ := walkEvents_paths o tl (i + 1) w hw
              exact ⟨j, q, by rw [← hwp, hq], hj⟩
            simp only [walkEvents, pathsOf_append, List.nodup_append]
            cases e with
            | obj efs =>
                by_cases hs : hasKeyJ efs "script" = true
                · simp only [hs, if_true]
                  refine ⟨?_, htail, ?_⟩
                  · exact nodup_pathsOf_consStep _ _
                      (ih.1 (.obj efs) (lookupJ efs "listen") hsz_e hwf.1)
                  · exact disjoint_idx_shapes i _ _
                      (fun p hp => by
                        obtain ⟨q, hq, _⟩ := mem_pathsOf_consStep _ _ p hp
                        exact ⟨q, hq⟩)
                      htailsh
                · simp only [Bool.not_eq_true] at hs
                  simp only [hs, Bool.false_eq_true, if_false]
                  exact ⟨by simp [pathsOf], htail, by simp [pathsOf, List.Disjoint]⟩
            | null => exact ⟨by simp [pathsOf], htail, by simp [pathsOf, List.Disjoint]⟩
            | bool b => exact ⟨by simp [pathsOf], htail, by simp [pathsOf, List.Disjoint]⟩
            | num m => exact ⟨by simp [pathsOf], htail, by simp [pathsOf, List.Disjoint]⟩
            | str s => exact ⟨by simp [pathsOf], htail, by simp [pathsOf, List.Disjoint]⟩
            | arr xs => exact ⟨by simp [pathsOf], htail, by simp [pathsOf, List.Disjoint]⟩
      · -- walkItems
        intro es i hle hwf
        cases es with
        | nil => simp [walkItems, pathsOf]
        | cons e tl =>
            rw [wfA_cons] at hwf
            have hszc := JArr.cons.sizeOf_spec e tl
            have hsz_tl : sizeOf tl ≤ n := by omega
            have hsz_e : sizeOf e ≤ n := by omega
            have htail := ih.2.2.2.1 tl (i + 1) hsz_tl hwf.2
            have htailsh : ∀ p ∈ pathsOf (walkItems o tl (i + 1)).2,
                ∃ j q, p = Step.idx j :: q ∧ i + 1 ≤ j := by
              intro p hp
              rw [mem_pathsOf] at hp
              obtain ⟨w, hw, hwp⟩ := hp
              obtain ⟨j, q, hq, hj⟩ := walkItems_paths o tl (i + 1) w hw
              exact ⟨j, q, by rw [← hwp, hq], hj⟩
            simp only [walkItems, pathsOf_append, List.nodup_append]
            refine ⟨?_, htail, ?_⟩
            · exact nodup_pathsOf_consStep _ _ (ih.1 e none hsz_e hwf.1)
            · exact disjoint_idx_shapes i _ _
                (fun p hp => by
                  obtain ⟨q, hq, _⟩ := mem_pathsOf_consStep _ _ p (by simpa using hp)
                  exact ⟨q, hq⟩)
                htailsh
      · -- walkArr
        intro es pl i hle hwf
        cases es with
        | nil => simp [walkArr, pathsOf]
        | cons e tl =>
            rw [wfA_cons] at hwf
            have hszc := JArr.cons.sizeOf_spec e tl
            have hsz_tl : sizeOf tl ≤ n := by omega
            have hsz_e : sizeOf e ≤ n := by omega
            have htail := ih.2.2.2.2 tl pl (i + 1) hsz_tl hwf.2
            have htailsh : ∀ p ∈ pathsOf (walkArr o tl pl (i + 1)).2,
                ∃ j q, p = Step.idx j :: q ∧ i + 1 ≤ j := by
              intro p hp
              rw [mem_pathsOf] at hp
              obtain ⟨w, hw, hwp⟩ := hp
              obtain ⟨j, q, hq, hj⟩ := walkArr_paths o tl pl (i + 1) w hw
              exact ⟨j, q, by rw [← hwp, hq], hj⟩
            simp only [walkArr, pathsOf_append, List.nodup_append]
            refine ⟨?_, htail, ?_⟩
            · exact nodup_pathsOf_consStep _ _ (ih.1 e pl hsz_e hwf.1)
            · exact disjoint_idx_shapes i _ _
                (fun p hp => by
                  obtain ⟨q, hq, _⟩ := mem_pathsOf_consStep _ _ p (by simpa using hp)
                  exact ⟨q, hq⟩)
                htailsh

theorem mem_consStep (s : Step) (vs : List Visit) (v : Visit)
    (hv : v ∈ consStep s vs) : ∃ w ∈ vs, v = ⟨s :: w.path, w.stype⟩ := by
  simp only [consStep, List.mem_map] at hv
  obtain ⟨w, hw, rfl⟩ := hv
  exact ⟨w, hw, rfl⟩

theorem specPhaseListen_obj_congr (k k2 : String) (h : k ≠ k2) (v0 : JVal) (tl : JObj)
    (q : List Step) (cur : Option JVal) (ev : Bool) :
    specPhaseListen (.obj (.cons k v0 tl)) (.key k2 :: q) cur ev =
    specPhaseListen (.obj tl) (.key k2 :: q) cur ev := by
  simp [specPhaseListen, lookupJ_cons_ne k v0 tl k2 h]

/-- The script type recorded at each visit is governed by the phase rule
of the specification (`specPhaseListen`): the nearest enclosing event's
listen tag, reset at `item` boundaries, preserved elsewhere. -/
theorem walk_phase_all (o : Oracle) : ∀ (n : Nat),
    (∀ (t : JVal) (pl : Option JVal), sizeOf t ≤ n → wfV t = true →
      ∀ v ∈ (walkV o t pl).2,
        v.stype = scriptTypeOf (specPhaseListen t v.path pl false)) ∧
    (∀ (fs : JObj) (pl : Option JVal), sizeOf fs ≤ n →
      nodupKeysJ fs = true → wfF fs = true →
      ∀ v ∈ (walkF o fs pl).2,
        v.stype = scriptTypeOf (specPhaseListen (.obj fs) v.path pl false)) ∧
    (∀ (es : JArr) (i : Nat), sizeOf es ≤ n → wfA es = true →
      ∀ v ∈ (walkEvents o es i).2, ∃ m q e, v.path = .idx (i + m) :: q ∧
        getArr es m = some e ∧
        v.stype = scriptTypeOf (specPhaseListen e q (listenOf e) false)) ∧
    (∀ (es : JArr) (i : Nat), sizeOf es ≤ n → wfA es = true →
      ∀ v ∈ (walkItems o es i).2, ∃ m q e, v.path = .idx (i + m) :: q ∧
        getArr es m = some e ∧
        v.stype = scriptTypeOf (specPhaseListen e q none false)) ∧
    (∀ (es : JArr) (pl : Option JVal) (i : Nat), sizeOf es ≤ n → wfA es = true →
      ∀ v ∈ (walkArr o es pl i).2, ∃ m q e, v.path = .idx (i + m) :: q ∧
        getArr es m = some e ∧
        v.stype = scriptTypeOf (specPhaseListen e q pl false)) := by
  intro n
  induction n with
  | zero =>
      refine ⟨?_, ?_, ?_, ?_, ?_⟩
      · intro t pl hle _; exfalso; cases t <;> simp_arith at hle
      · intro fs pl hle _ _; exfalso; cases fs <;> simp_arith at hle
      · intro es i hle _; exfalso; cases es <;> simp_arith at hle
      · intro es i hle _; exfalso; cases es <;> simp_arith at hle
      · intro es pl i hle _; exfalso; cases es <;> simp_arith at hle
  | succ n ih =>
      refine ⟨?_, ?_, ?_, ?_, ?_⟩
      · -- walkV
        intro t pl hle hwf v hv
        cases t with
        | obj fs =>
            rw [wfV_obj] at hwf
            rw [show (walkV o (.obj fs) pl).2 = (walkF o fs pl).2 from by simp [walkV]] at hv
            exact ih.2.1 fs pl (by have := JVal.obj.sizeOf_spec fs; omega) hwf.1 hwf.2 v hv
        | arr xs =>
            rw [show (walkV o (.arr xs) pl).2 = (walkArr o xs pl 0).2 from by simp [walkV]] at hv
            obtain ⟨m, q, e, hpath, hget, hst⟩ :=
              ih.2.2.2.2 xs pl 0 (by have := JVal.arr.sizeOf_spec xs; omega)
                (by simpa [wfV] using hwf) v hv
            rw [hpath, hst]
            simp only [Nat.zero_add] at hget ⊢
            simp [specPhaseListen, hget]
        | null => simp [walkV] at hv
        | bool b => simp [walkV] at hv
        | num m => simp [walkV] at hv
        | str s => simp [walkV] at hv
      · -- walkF
        intro fs pl hle hnod hwf v hv
        cases fs with
        | nil => simp [walkF] at hv
        | cons k v0 tl =>
            rw [nodupKeysJ_cons] at hnod
            rw [wfF_cons] at hwf
            obtain ⟨hk_tl, hnod_tl⟩ := hnod
            obtain ⟨hfo, hwf_v0, hwf_tl⟩ := hwf
            have hszk := JObj.cons.sizeOf_spec k v0 tl
            have hv0pos := sizeOf_jval_pos v0
            have hsz_tl : sizeOf tl ≤ n := by omega
            have hsz_v0 : sizeOf v0 ≤ n := by omega
            rw [walkF.eq_def] at hv
            simp only [List.mem_append] at hv
            rcases hv with hv | hv
            · by_cases hk : k = "event"
              · subst hk
                simp only [if_true] at hv
                match v0, hwf_v0, hv with
                | .arr es, hwf_v0, hv =>
                    obtain ⟨w, hw, rfl⟩ := mem_consStep _ _ v hv
                    obtain ⟨m, q, e, hpath, hget, hst⟩ :=
                      ih.2.2.1 es 0 (by have := JVal.arr.sizeOf_spec es; omega)
                        (by simpa [wfV] using hwf_v0) w hw
                    simp only [hpath, hst, Nat.zero_add] at *
                    simp [specPhaseListen, lookupJ, hget]
                | .null, _, hv => simp at hv
                | .bool b, _, hv => simp at hv
                | .num m, _, hv => simp at hv
                | .str s, _, hv => simp at hv
                | .obj fs2, _, hv => simp at hv
              · by_cases hk2 : k = "script"
                · subst hk2
                  simp only [hk, if_false, if_true] at hv
                  match v0, hv with
                  | .obj sfs, hv =>
                      cases hex : lookupJ sfs "exec" with
                      | some ex =>
                          simp only [hex, List.mem_singleton] at hv
                          subst hv
                          simp [specPhaseListen]
                      | none => simp [hex] at hv
                  | .null, hv => simp at hv
                  | .bool b, hv => simp at hv
                  | .num m, hv => simp at hv
                  | .str s, hv => simp at hv
                  | .arr es, hv => simp at hv
                · by_cases hk3 : k = "item"
                  · subst hk3
                    simp only [hk, hk2, if_false, if_true] at hv
                    match v0, hwf_v0, hv with
                    | .arr es, hwf_v0, hv =>
                        obtain ⟨w, hw, rfl⟩ := mem_consStep _ _ v hv
                        obtain ⟨m, q, e, hpath, hget, hst⟩ :=
                          ih.2.2.2.1 es 0 (by have := JVal.arr.sizeOf_spec es; omega)
                            (by simpa [wfV] using hwf_v0) w hw
                        simp only [hpath, hst, Nat.zero_add] at *
                        simp [specPhaseListen, lookupJ, hget]
                    | .null, _, hv => simp at hv
                    | .bool b, _, hv => simp at hv
                    | .num m, _, hv => simp at hv
                    | .str s, _, hv => simp at hv
                    | .obj fs2, _, hv => simp at hv
                  · simp only [hk, hk2, hk3, if_false] at hv
                    obtain ⟨w, hw, rfl⟩ := mem_consStep _ _ v hv
                    have hst := ih.1 v0 pl hsz_v0 hwf_v0 w hw
                    simp only [hst]
                    simp [specPhaseListen, lookupJ, hk, hk3]
            · have hst := ih.2.1 tl pl hsz_tl hnod_tl hwf_tl v hv
              rcases walkF_paths o tl pl v hv with ⟨hp0, _⟩ | ⟨k2, q2, hp2, hs2⟩
              · rw [hp0] at hst ⊢
                rw [hst]
                simp [specPhaseListen]
              · have hne : k ≠ k2 := by
                  intro hkk
                  rw [← hkk] at hs2
                  rw [hs2] at hk_tl
                  cases hk_tl
                rw [hp2] at hst ⊢
                rw [hst, specPhaseListen_obj_congr k k2 hne]
      · -- walkEvents
        intro es i hle hwf v hv
        cases es with
        | nil => simp [walkEvents] at hv
        | cons e tl =>
            rw [wfA_cons] at hwf
            have hszc := JArr.cons.sizeOf_spec e tl
            have hsz_tl : sizeOf tl ≤ n := by omega
            have hsz_e : sizeOf e ≤ n := by omega
            simp only [walkEvents, List.mem_append] at hv
            rcases hv with hv | hv
            · match e, hwf, hv with
              | .obj efs, hwf, hv =>
                  by_cases hs : hasKeyJ efs "script" = true
                  · simp only [hs, if_true] at hv
                    obtain ⟨w, hw, rfl⟩ := mem_consStep _ _ v hv
                    have hst := ih.1 (.obj efs) (lookupJ efs "listen") hsz_e hwf.1 w hw
                    exact ⟨0, w.path, .obj efs, by rw [Nat.add_zero], by simp [getArr],
                      by simpa [listenOf] using hst⟩
                  · simp only [Bool.not_eq_true] at hs
                    simp [hs] at hv
              | .null, _, hv => simp at hv
              | .bool b, _, hv => simp at hv
              | .num m, _, hv => simp at hv
              | .str s, _, hv => simp at hv
              | .arr xs, _, hv => simp at hv
            · obtain ⟨m, q, e2, hpath, hget, hst⟩ := ih.2.2.1 tl (i + 1) hsz_tl hwf.2 v hv
              exact ⟨m + 1, q, e2, by rw [hpath]; congr 2; omega, by simpa [getArr] using hget, hst⟩
      · -- walkItems
        intro es i hle hwf v hv
        cases es with
        | nil => simp [walkItems] at hv
        | cons e tl =>
            rw [wfA_cons] at hwf
            have hszc := JArr.cons.sizeOf_spec e tl
            have hsz_tl : sizeOf tl ≤ n := by omega
            have hsz_e : sizeOf e ≤ n := by omega
            simp only [walkItems, List.mem_append] at hv
            rcases hv with hv | hv
            · obtain ⟨w, hw, rfl⟩ := mem_consStep _ _ v hv
              have hst := ih.1 e none hsz_e hwf.1 w hw
              exact ⟨0, w.path, e, by rw [Nat.add_zero], by simp [getArr], hst⟩
            · obtain ⟨m, q, e2, hpath, hget, hst⟩ := ih.2.2.2.1 tl (i + 1) hsz_tl hwf.2 v hv
              exact ⟨m + 1, q, e2, by rw [hpath]; congr 2; omega, by simpa [getArr] using hget, hst⟩
      · -- walkArr
        intro es pl i hle hwf v hv
        cases es with
        | nil => simp [walkArr] at hv
        | cons e tl =>
            rw [wfA_cons] at hwf
            have hszc := JArr.cons.sizeOf_spec e tl
            have hsz_tl : sizeOf tl ≤ n := by omega
            have hsz_e : sizeOf e ≤ n := by omega
            simp only [walkArr, List.mem_append] at hv
            rcases hv with hv | hv
            · obtain ⟨w, hw, rfl⟩ := mem_consStep _ _ v hv
              have hst := ih.1 e pl hsz_e hwf.1 w hw
              exact ⟨0, w.path, e, by rw [Nat.add_zero], by simp [getArr], hst⟩
            · obtain ⟨m, q, e2, hpath, hget, hst⟩ := ih.2.2.2.2 tl pl (i + 1) hsz_tl hwf.2 v hv
              exact ⟨m + 1, q, e2, by rw [hpath]; congr 2; omega, by simpa [getArr] using hget, hst⟩

theorem scriptTypeOf_eq_pre : ∀ (cur : Option JVal),
    scriptTypeOf cur = "prerequest" ↔ cur = some (.str "prerequest")
  | none => by simp [scriptTypeOf]
  | some .null => by simp [scriptTypeOf]
  | some (.bool b) => by simp [scriptTypeOf]
  | some (.num m) => by simp [scriptTypeOf]
  | some (.arr xs) => by simp [scriptTypeOf]
  | some (.obj fs) => by simp [scriptTypeOf]
  | some (.str s) => by
      by_cases hs : s = "prerequest"
      · subst hs; simp [scriptTypeOf]
      · simp [scriptTypeOf, hs]

/-- C4 (amended): on every well-formed document the tree walk records
each script visit at a distinct path — no script node is visited twice. -/
theorem c4_visit_at_most_once (o : Oracle) (t : JVal) (pl : Option JVal)
    (h : wfV t = true) :
    (pathsOf (walkV o t pl).2).Nodup :=
  (walk_nodup_all o (sizeOf t)).1 t pl (le_refl _) h

theorem c4_visit_at_most_once_witness :
    wfV docOneScript = true ∧ (pathsOf (walkV oracleClean docOneScript none).2).Nodup :=
  ⟨by decide, c4_visit_at_most_once oracleClean docOneScript none (by decide)⟩

/-- C4 counterexample: a well-formed document containing a script
fragment with a non-blank `exec`, nested beneath a `"script"` key, is
traversed with no visits at all and returned unchanged — the fragment is
reachable in the tree but never converted, contradicting the claim that
every reachable script fragment is visited exactly once. -/
theorem c4_counterexample :
    wfV docMissedScript = true ∧
    atPath docMissedScript [.key "script", .key "inner", .key "script", .key "exec"]
      = some (.arr (.cons (.str "tests[\"a\"] = 1;") .nil)) ∧
    walkV oracleClean docMissedScript none = (docMissedScript, []) := by decide

/-- C5: for every script visited in a well-formed document, the script
type passed to conversion follows the specification's phase rule: it is
`"prerequest"` exactly when the nearest enclosing event explicitly
declared that phase through its listen tag (with `item` recursion
resetting the inherited phase and other containers preserving it, as
rendered by `specPhaseListen`), and `"test"` otherwise. -/
theorem c5_phase_resolution (o : Oracle) (t : JVal) (h : wfV t = true) :
    ∀ v ∈ (walkV o t none).2,
      v.stype = scriptTypeOf (specPhaseListen t v.path none false) ∧
      (v.stype = "prerequest" ↔
        specPhaseListen t v.path none false = some (.str "prerequest")) := by
  intro v hv
  have h1 := (walk_phase_all o (sizeOf t)).1 t none (le_refl _) h v hv
  refine ⟨h1, ?_⟩
  rw [h1]
  exact scriptTypeOf_eq_pre _

theorem c5_phase_resolution_witness :
    wfV docOneScript = true ∧
    (⟨[.key "item", .idx 0, .key "event", .idx 0], "prerequest"⟩ : Visit)
      ∈ (walkV oracleClean docOneScript none).2 ∧
    ("prerequest" : String) = scriptTypeOf
      (specPhaseListen docOneScript [.key "item", .idx 0, .key "event", .idx 0] none false) :=
  ⟨by decide, by decide,
   (c5_phase_resolution oracleClean docOneScript (by decide)
     ⟨[.key "item", .idx 0, .key "event", .idx 0], "prerequest"⟩ (by decide)).1⟩

